import Mathlib

/-!
Verification of the critical-point / implicit-differentiation core of
`optimization.cc` (giac optimization module).  The C++ code is shallowly
embedded: pure loops become structural recursions, `std::map` becomes an
association list with merge-on-insert, and every call into the external
symbolic kernel (`_det`, `_solve`, `_ratnormal`, `subst`, ...) becomes an
oracle parameter of the embedded function.
-/

set_option maxHeartbeats 1000000

namespace Optimization

/-! ## Multi-index partition generator (`ipdiff::sum_ivector`, `ipdiff::ipartition`) -/

/-- Source: `ipdiff::sum_ivector(v, drop_last = false)` — the sum of an integer
vector, accumulated left to right. -/
def sum_ivector (v : List Nat) : Nat := v.foldl (· + ·) 0

/-- Inner `j`-loop of `ipdiff::ipartition`: repeatedly increment coordinate `i`
of the running partition `r`; when the partial sum reaches `m`, push `r` into
the accumulator unless already present; when still below `m`, recurse through
`rec` (the enclosing `ipartition` call); when above `m`, break.  `fuelJ` counts
the remaining iterations of the `for (j = 0; j < m; ++j)` loop. -/
def ipJLoop (m i : Nat) (rec : List Nat → List (List Nat) → List (List Nat)) :
    Nat → List Nat → List (List Nat) → List (List Nat)
  | 0, _, c => c
  | fuelJ + 1, r, c =>
      let r' := r.set i (r.getD i 0 + 1)
      let s := sum_ivector r'
      if s = m then
        ipJLoop m i rec fuelJ r' (if r' ∈ c then c else c.concat r')
      else if s < m then
        ipJLoop m i rec fuelJ r' (rec r' c)
      else c

/-- Outer `i`-loop of `ipdiff::ipartition`: skip coordinates already fixed
(non-zero) in `p`, otherwise run the inner loop starting from `r = p`. -/
def ipILoop (m : Nat) (p : List Nat) (rec : List Nat → List (List Nat) → List (List Nat)) :
    List Nat → List (List Nat) → List (List Nat)
  | [], c => c
  | i :: is, c =>
      ipILoop m p rec is (if p.getD i 0 ≠ 0 then c else ipJLoop m i rec m p c)

/-- `ipdiff::ipartition(m, n, c, p)` with explicit recursion fuel.  Each
recursive call strictly increases the sum of the running partition, so depth
`m + 1` always suffices (proved below). -/
def ipartitionF : Nat → Nat → Nat → List Nat → List (List Nat) → List (List Nat)
  | 0, _, _, _, c => c
  | fuel + 1, m, n, p, c => ipILoop m p (ipartitionF fuel m n) (List.range n) c

/-- Top-level `ipdiff::ipartition(m, n, c)` with the default empty partition:
an empty `p` fixes no coordinate, which is the same as the all-zero vector. -/
def ipartition (m n : Nat) : List (List Nat) :=
  ipartitionF (m + 1) m n (List.replicate n 0) []

/-- A vector agrees with every coordinate fixed (non-zero) in `p`. -/
def agreesFixed (p x : List Nat) : Prop :=
  ∀ i, p.getD i 0 ≠ 0 → x.getD i 0 = p.getD i 0

/-- The vectors an `ipartition(m, n, ·, p)` call contributes: length `n`,
component sum `m`, agreeing with the fixed coordinates of `p`, and distinct
from `p` itself. -/
def goodVec (m n : Nat) (p x : List Nat) : Prop :=
  x.length = n ∧ sum_ivector x = m ∧ agreesFixed p x ∧ x ≠ p

/-! ## Taylor series over the partial-derivative store (`ipdiff::taylor_term`, `ipdiff::taylor`) -/

/-- Source: `ipdiff::taylor_term(a, k)`.  For `k = 0` the code returns the
objective with its variables substituted by the point `a` (`subst(f, vars, a)`,
an external kernel call, modelled by the oracle value `substF`).  For `k > 0`
it enumerates `ipartition(k, nvars)` and accumulates, for each multi-index
`sig`, the evaluated partial derivative at the point times the corresponding
monomial in `vars - a` divided by the multinomial factorial; that whole
per-multi-index value is computed by the external kernel and is modelled by
the oracle `pdval sig`.  The accumulation `term += pd` is a left fold
starting from zero. -/
def taylor_term {V : Type} [AddCommMonoid V] (nvars : Nat)
    (substF : V) (pdval : List Nat → V) (k : Nat) : V :=
  if k = 0 then substF
  else ((ipartition k nvars).map pdval).foldl (· + ·) 0

/-- Source: `ipdiff::taylor(a, order)`:
`gen T(0); for (k = 0; k <= order; ++k) T += taylor_term(a, k); return T;`. -/
def taylor {V : Type} [AddCommMonoid V] (nvars : Nat)
    (substF : V) (pdval : List Nat → V) (order : Nat) : V :=
  ((List.range (order + 1)).map (taylor_term nvars substF pdval)).foldl (· + ·) 0

/-! ## Critical-point classification (`find_local_extrema`) -/

/-- Modelled from the spec: the `_CPCLASS_*` classification codes are declared
in the module header, which is not among the available sources.  The spec
lists the six codes with UNDECIDED as the initial state, and the source
relies on the default-constructed (zero) `gen_map` entry being the
"unclassified" state, so `UNDECIDED` carries code 0 and the remaining codes
are non-zero and pairwise distinct. -/
inductive CPClass where
  | UNDECIDED
  | MIN
  | MAX
  | SADDLE
  | POSSIBLE_MIN
  | POSSIBLE_MAX
deriving DecidableEq, Repr

/-- Modelled from the spec: integer codes of the `_CPCLASS_*` constants
(`UNDECIDED = 0` is forced by the source's `is_zero` test on
default-initialized map entries). -/
def CPClass.code : CPClass → Nat
  | .UNDECIDED => 0
  | .MIN => 1
  | .MAX => 2
  | .SADDLE => 3
  | .POSSIBLE_MIN => 4
  | .POSSIBLE_MAX => 5

/-- Which classification method `find_local_extrema` applies, from its branch
structure: `if (order_size == 0 && m > 0) { Lagrange multipliers, bordered
Hessian minor test } else if (order_size > 0) { implicit differentiation,
eigenvalue and higher-order Taylor tests }` — and nothing otherwise. -/
inductive ClassifierMethod where
  | lagrangeBorderedHessian
  | implicitDiff
  | skip
deriving DecidableEq, Repr

/-- Branch dispatch of `find_local_extrema(…, order_size, …)` for a problem
with `m` constraints. -/
def find_local_extrema_method (order_size m : Nat) : ClassifierMethod :=
  if order_size = 0 ∧ 0 < m then .lagrangeBorderedHessian
  else if 0 < order_size then .implicitDiff
  else .skip

/-- The bordered-Hessian minor sign loop of the Lagrange (`order_size == 0`)
branch of `find_local_extrema`.  The bordered Hessian of the Lagrangian in
the variables (multipliers, temporaries) is `(2m + n) × (2m + n)`; the loop
inspects, for `k = 1..n`, the sign of the determinant of the leading
principal minor of size `2m + k` (sizes starting after the `2m`-row border).
Determinant and sign are external kernel calls, so the embedded loop takes
the list of signs as input.  Loop body, from the source: a zero sign resets
the class to UNDECIDED and breaks; a SADDLE class skips the update;
otherwise the sign pattern tests run in order. -/
def classifyMinorsFrom (m : Nat) : Nat → CPClass → List Int → CPClass
  | _, cls, [] => cls
  | k, cls, s :: rest =>
      if s = 0 then .UNDECIDED
      else if cls = .SADDLE then classifyMinorsFrom m (k + 1) cls rest
      else
        classifyMinorsFrom m (k + 1)
          (if cls ≠ .MAX ∧ 0 < s * (-1) ^ m then .MIN
           else if cls ≠ .MIN ∧ 0 < s * (-1) ^ (m + k) then .MAX
           else .SADDLE) rest

/-- The full minor test: start with `cls = UNDECIDED` at minor index `k = 1`. -/
def classifyMinors (m : Nat) (signs : List Int) : CPClass :=
  classifyMinorsFrom m 1 .UNDECIDED signs

/-- The sign pattern `(-1)^m`, constant across minor indices (the MIN
pattern of the claim). -/
def minPattern (m : Nat) (signs : List Int) : Bool :=
  signs.all (fun s => s = (-1) ^ m)

/-- The sign pattern `(-1)^(m+k)` where `k` is the current minor index (the
MAX pattern of the claim). -/
def maxPattern (m : Nat) : Nat → List Int → Bool
  | _, [] => true
  | k, s :: rest => s = (-1) ^ (m + k) && maxPattern m (k + 1) rest

/-- Lookup in the `gen_map` from candidate point to classification; an absent
key reads as the default-constructed zero entry, i.e. UNDECIDED. -/
def lookupClass {P : Type} [DecidableEq P] : List (P × CPClass) → P → CPClass
  | [], _ => .UNDECIDED
  | e :: rest, pt => if e.1 = pt then e.2 else lookupClass rest pt

/-- Store (insert or overwrite) a classification for a point. -/
def setClass {P : Type} [DecidableEq P] : List (P × CPClass) → P → CPClass → List (P × CPClass)
  | [], pt, v => [(pt, v)]
  | e :: rest, pt, v => if e.1 = pt then (pt, v) :: rest else e :: setClass rest pt v

/-- The cross-arrangement accumulation rule of the `order_size > 0` branch of
`find_local_extrema`: `gen &cpt_class = cpts[cpt_arr]; if (order_size == 1 ||
!is_zero(cpt_class)) continue; … cpt_class = gen(cls);` — the stored value is
kept whenever the test order is 1 or the current value is non-zero
(non-UNDECIDED), and replaced by the newly computed class otherwise. -/
def classUpdate (order_size : Nat) (cur newc : CPClass) : CPClass :=
  if order_size = 1 ∨ cur.code ≠ 0 then cur else newc

/-- One candidate-processing step at the level of the accumulated map: the
subscript `cpts[cpt_arr]` inserts a default (UNDECIDED) entry when absent,
after which the update rule applies. -/
def cptsProcess {P : Type} [DecidableEq P] (order_size : Nat)
    (cpts : List (P × CPClass)) (pt : P) (newc : CPClass) : List (P × CPClass) :=
  setClass cpts pt (classUpdate order_size (lookupClass cpts pt) newc)

/-! ## KKT candidate solver (`next_binary_perm`, `solve_kkt`) -/

/-- Source: `next_binary_perm(perm, to_end)` — advances the
complementary-slackness pattern by one binary increment, flipping entries
from the back; returns the updated pattern together with the C++ return
value, which is `false` exactly when every entry has wrapped back to
`false`.  (The source recursion is only ever entered with
`to_end ≤ perm.size()`; the final catch-all branch is unreachable there.) -/
def next_binary_perm_aux : Nat → List Bool → Nat → List Bool × Bool
  | 0, perm, _ => (perm, false)
  | fuel + 1, perm, to_end =>
      let e := perm.length - 1 - to_end
      let b := !(perm.getD e false)
      let perm' := perm.set e b
      if b then (perm', true) else next_binary_perm_aux fuel perm' (to_end + 1)

/-- The recursion is driven by `perm.size() - to_end`, which strictly
decreases (the flipped entry keeps the length fixed); it is passed explicitly
so the definition stays structural.  `to_end = perm.size()` (fuel 0) returns
`(perm, false)`. -/
def next_binary_perm (perm : List Bool) (to_end : Nat) : List Bool × Bool :=
  next_binary_perm_aux (perm.length - to_end) perm to_end

/-- The `do { … } while (next_binary_perm(is_mu_zero))` enumeration of
`solve_kkt`: the list of patterns visited, starting from the given pattern,
stopping when `next_binary_perm` reports a wrap-around.  `fuel` bounds the
loop; `2^m` iterations always suffice (proved below). -/
def kkt_perms : Nat → List Bool → List (List Bool)
  | 0, _ => []
  | fuel + 1, perm =>
      perm ::
        (if (next_binary_perm perm 0).2 then kkt_perms fuel (next_binary_perm perm 0).1
         else [])

/-- Source, `solve_kkt` loop body: starting from the stationarity equations
(merged with the equality constraints) and the full variable-index list,
walk the multiplier indices `i = m-1 .. 0`; a multiplier forced to zero is
substituted away (`subst(e, v[n+i], 0)`, an external kernel call modelled by
the oracle `substZero`) and its variable erased, otherwise the inequality's
left side `g[i]` is appended as a tightness equation. -/
def kkt_reduce {E : Type} (n : Nat) (g : List E) (e0 : E)
    (substZero : E → Nat → E) (pat : List Bool) :
    Nat → List E → List Nat → List E × List Nat
  | 0, e, v => (e, v)
  | i + 1, e, v =>
      if pat.getD i false then
        kkt_reduce n g e0 substZero pat i
          (e.map (fun t => substZero t (n + i))) (v.eraseIdx (n + i))
      else
        kkt_reduce n g e0 substZero pat i (e.concat (g.getD i e0)) v

/-- Source: `solve_kkt(f, g, h, vars)`.  `n` is the number of original
variables, `g.length` the number of inequalities, `l` the number of equality
constraints; `eqv` holds the stationarity equations merged with the equality
constraints.  The external solver `solve2` and the external strict-positivity
test on `subst(g[j], vars, sol)` are oracles.  Every complementary-slackness
pattern is visited; the reduced system is solved; the per-pattern solution
lists are concatenated (`mergevecteur`); each solution is truncated to the
first `n` coordinates (`resize`) and dropped when some inequality evaluates
strictly positive at it. -/
def solve_kkt {E V : Type} (n l : Nat) (eqv g : List E) (e0 : E)
    (substZero : E → Nat → E)
    (solve2 : List E → List Nat → List (List V))
    (ispos : Nat → List V → Bool) : List (List V) :=
  let m := g.length
  let cv := ((kkt_perms (2 ^ m) (List.replicate m false)).map
      (fun pat =>
        let ev := kkt_reduce n g e0 substZero pat m eqv (List.range (n + m + l))
        solve2 ev.1 ev.2)).flatten
  (cv.map (fun sol => sol.take n)).filter
    (fun sol => !((List.range m).any (fun j => ispos j sol)))

/-- Binary increment of an LSB-first bit list: the value semantics of
`next_binary_perm`, whose stored pattern keeps the least significant entry
last. -/
def lsbInc : List Bool → List Bool × Bool
  | [] => ([], false)
  | false :: t => (true :: t, true)
  | true :: t =>
      let r := lsbInc t
      (false :: r.1, r.2)

/-- Value of an LSB-first bit list. -/
def lsbVal : List Bool → Nat
  | [] => 0
  | b :: t => (if b then 1 else 0) + 2 * lsbVal t

/-- Value of a stored complementary-slackness pattern (most significant
entry first, as `next_binary_perm` flips from the back). -/
def patVal (perm : List Bool) : Nat := lsbVal perm.reverse

/-! ## Global extrema evaluation (`global_extrema`, `_minimize`, `_maximize`) -/

/-- State of the candidate loop of `global_extrema`: whether the running
minimum/maximum have been set, their values, and the minimizer locations. -/
structure GEState (P V : Type) where
  minSet : Bool
  maxSet : Bool
  mn : V
  mx : V
  locs : List P

/-- One iteration of the candidate loop of `global_extrema`.  `eqz a b`
models `is_exactly_zero(_ratnormal(a - b))` (exact symbolic equality after
rational normalization, an external kernel call), and `gt a b` models
`is_strictly_greater(a, b)`.  Source order: tie test first (append the point
unless already recorded), otherwise the new-minimum test (reset value and
location list); then the independent running-maximum update. -/
def ge_step {P V : Type} [DecidableEq P] (eqz gt : V → V → Bool)
    (s : GEState P V) (pv : P × V) : GEState P V :=
  let s1 :=
    if s.minSet && eqz pv.2 s.mn then
      if pv.1 ∈ s.locs then s else { s with locs := s.locs ++ [pv.1] }
    else if !s.minSet || gt s.mn pv.2 then
      { s with minSet := true, mn := pv.2, locs := [pv.1] }
    else s
  if !s1.maxSet || gt pv.2 s1.mx then { s1 with maxSet := true, mx := pv.2 } else s1

/-- The candidate loop of `global_extrema`, run from the initial state
(`min_set = max_set = false`; the uninitialized `mn`/`mx` are modelled by the
argument `v0`, which no branch ever reads before setting). -/
def ge_run {P V : Type} [DecidableEq P] (eqz gt : V → V → Bool) (v0 : V)
    (cands : List (P × V)) : GEState P V :=
  cands.foldl (ge_step eqz gt) ⟨false, false, v0, v0, []⟩

/-- Source: `global_extrema` — an empty candidate set returns the empty
vector before the loop runs; otherwise the accumulated minimizer
locations. -/
def global_extrema {P V : Type} [DecidableEq P] (eqz gt : V → V → Bool) (v0 : V)
    (cands : List (P × V)) : List P :=
  if cands.isEmpty then [] else (ge_run eqz gt v0 cands).locs

/-- Result type of `_minimize`/`_maximize`: the undefined sentinel (`undef`,
an ordinary return value, not a raised error), a plain extreme value, or a
sequence of the extreme value and the location list. -/
inductive MinOut (P V : Type) where
  | undefR
  | val (v : V)
  | valloc (v : V) (locs : List P)
deriving DecidableEq, Repr

/-- Source: `_minimize` — `loc := global_extrema(...); if (loc.empty())
return undef;` then the minimum value, paired with the location list when
the `location` option was passed. -/
def _minimize {P V : Type} [DecidableEq P] (eqz gt : V → V → Bool) (v0 : V)
    (location : Bool) (cands : List (P × V)) : MinOut P V :=
  let loc := global_extrema eqz gt v0 cands
  if loc.isEmpty then .undefR
  else if location then .valloc (ge_run eqz gt v0 cands).mn loc
  else .val (ge_run eqz gt v0 cands).mn

/-- The kernel's exact comparisons instantiated at rational values:
`is_exactly_zero(_ratnormal(a - b))` is exact equality of rationals and
`is_strictly_greater` is `>`. -/
def eqzQ (a b : Rat) : Bool := a - b = 0

/-- `is_strictly_greater(a, b)` at rational values. -/
def gtQ (a b : Rat) : Bool := b < a

/-- Source: `_maximize` — negate the objective (hence every candidate value
seen by the delegated minimization), call `_minimize`, then negate only the
front element of a returned sequence (the extreme value), or the whole
result when it is a plain value; `-undef` remains undefined. -/
def _maximize {P : Type} [DecidableEq P] (location : Bool)
    (cands : List (P × Rat)) : MinOut P Rat :=
  match _minimize eqzQ gtQ 0 location (cands.map (fun pv => (pv.1, -pv.2))) with
  | .undefR => .undefR
  | .val v => .val (-v)
  | .valloc v locs => .valloc (-v) locs

/-! ## Variable-arrangement selector (`vars_arrangements`) -/

/-- `bitset<32>(k).count()`: the number of set bits among the 32 low bits. -/
def bitcount32 (k : Nat) : Nat :=
  ((List.range 32).filter (fun i => Nat.testBit k i)).length

/-- The inner rearrangement loop of `vars_arrangements`: for `i = n-1 .. 0`
(matching `for (i = n; i-- > 0;)` with `N` halving to `2^i`), if bit `i` of
the subset mask is set, erase position `i` — which still holds the value `i`,
as only larger indices have been moved so far — and push `i` to the back. -/
def arrLoop (k : Nat) : Nat → List Nat → List Nat
  | 0, arr => arr
  | i + 1, arr =>
      arrLoop k i (if Nat.testBit k i then (arr.eraseIdx i).concat i else arr)

/-- The arrangement built from subset mask `k`: start from the identity
`[0, …, n-1]` and move the selected (dependent) indices to the back. -/
def arrOf (n k : Nat) : List Nat := arrLoop k n (List.range n)

/-- The matrix handed to the external determinant: the rows of the
transposed Jacobian (`tJ[arr[i]]` for the last `m` arrangement entries),
i.e. the chosen columns of the `m × n` Jacobian `J`. -/
def subBlock {α : Type} (J : Nat → Nat → α) (m : Nat) (idxs : List Nat) :
    List (List α) :=
  idxs.map (fun j => (List.range m).map (fun r => J r j))

/-- Source: `vars_arrangements(J, arrs)` for an `m × n` constraint Jacobian
(`assert(n <= 32 && m < n)`): enumerate the masks `k = 1 .. 2^n - 1` whose
`bitset<32>` population count is `m`, build each arrangement, and keep it
exactly when the external `is_zero(_det(S))` test (oracles `iszO`, `detO`)
does not recognize the selected sub-block's determinant as zero. -/
def vars_arrangements {α : Type} (m n : Nat) (J : Nat → Nat → α)
    (detO : List (List α) → α) (iszO : α → Bool) : List (List Nat) :=
  let sets := (List.range' 1 (2 ^ n - 1)).filter (fun k => bitcount32 k = m)
  (sets.map (arrOf n)).filter
    (fun arr => !iszO (detO (subBlock J m (arr.drop (n - m)))))

/-- The independent (free) variable indices under a subset mask, in their
original ascending order. -/
def freeL (n k : Nat) : List Nat :=
  (List.range n).filter (fun j => !Nat.testBit k j)

/-- The dependent (selected) variable indices under a subset mask, in
ascending order (the built arrangement carries them reversed at the back). -/
def selL (n k : Nat) : List Nat :=
  (List.range n).filter (fun j => Nat.testBit k j)

/-! ## The `_extrema` front end dimension guard -/

/-- The typed error kinds of the front end: `gendimerr`, `gentypeerr`,
`gensizeerr`. -/
inductive ExtremaErr where
  | dimErr
  | typeErr
  | sizeErr
deriving DecidableEq, Repr

/-- The arrangement-selection and classification phase of `_extrema`: with a
positive test order and at least one constraint it builds the constraint
Jacobian and aborts with a dimension-typed error (`gendimerr("Too many
constraints,")`) as soon as the constraint count reaches the variable count
or the external symbolic rank of the Jacobian (oracle value `rankJ`) falls
below the constraint count — before any candidate is solved for or
classified; otherwise every surviving arrangement (the single identity
arrangement when no constraints are present or the Lagrange mode was
requested) is handed to `find_local_extrema`, modelled by the oracle
`solveClassify` returning the per-arrangement candidate events. -/
def extrema_run {α A : Type} (order_size m nv rankJ : Nat)
    (J : Nat → Nat → α) (detO : List (List α) → α) (iszO : α → Bool)
    (solveClassify : List Nat → List A) : Except ExtremaErr (List A) :=
  if 0 < order_size ∧ m ≠ 0 then
    if nv ≤ m ∨ rankJ < m then .error .dimErr
    else .ok ((vars_arrangements m nv J detO iszO).foldl
        (fun acc arr => acc ++ solveClassify arr) [])
  else .ok (solveClassify (List.range nv))

/-! ## Differential-term algebra (`ipdiff::derive_diffterms`) -/

/-- Lexicographic comparison of integer vectors: the `std::vector` ordering
that keys the `std::map`s below. -/
def ivLt : List Nat → List Nat → Bool
  | [], [] => false
  | [], _ :: _ => true
  | _ :: _, [] => false
  | a :: as, b :: bs => if a < b then true else if b < a then false else ivLt as bs

/-- An `ivector_map` (`std::map<ivector, int>` from implicit-derivative
multi-index to exponent), kept sorted by `ivLt` so that structural equality
of the Lean value coincides with `std::map` equality. -/
abbrev IvMap := List (List Nat × Int)

/-- `++h[v]`-style update through `operator[]`: add `d` to the entry of
`key`, inserting a fresh entry (default 0) in order when absent; zero-valued
entries remain in the map, as they do in C++. -/
def mapAdd : IvMap → List Nat → Int → IvMap
  | [], key, d => [(key, d)]
  | (k, v) :: t, key, d =>
      if ivLt key k then (key, d) :: (k, v) :: t
      else if ivLt k key then (k, v) :: mapAdd t key d
      else (k, v + d) :: t

/-- `h.erase(h.find(key))`: drop the entry with the given key. -/
def mapErase : IvMap → List Nat → IvMap
  | [], _ => []
  | (k, v) :: t, key => if k = key then t else (k, v) :: mapErase t key

/-- A `diffterm`: the multi-index of raw partials taken directly (axes for
all variables, independent then dependent) paired with the map from
implicit-derivative multi-index (length `nvars + 1`, the trailing entry
tagging the constraint) to its exponent. -/
abbrev DiffTerm := List Nat × IvMap

/-- A `diffterms` expansion (`std::map<diffterm, int>`): terms with integer
coefficients; `tv[t] += c` merges structurally equal terms by summing
coefficients (`addTerm`). -/
abbrev DiffTerms := List (DiffTerm × Int)

/-- `tv[t] += c` on an expansion. -/
def addTerm : DiffTerms → DiffTerm → Int → DiffTerms
  | [], t, c => [(t, c)]
  | (t', c') :: rest, t, c =>
      if t' = t then (t', c' + c) :: rest else (t', c') :: addTerm rest t c

/-- Coefficient lookup with the map's default-zero semantics. -/
def coeffOf : DiffTerms → DiffTerm → Int
  | [], _ => 0
  | (t', c') :: rest, t => if t' = t then c' else coeffOf rest t

/-- `++v.at(k)` on a multi-index. -/
def incAt (v : List Nat) (k : Nat) : List Nat := v.set k (v.getD k 0 + 1)

/-- Rule (ii) of the `derive_diffterms` loop body: walk the implicit factors
`(v, p)` of the original map in map order; for `p ≠ 0`, decrement the power
(erasing the entry when `p = 1`), introduce the factor with coordinate `k`
incremented, record the term `(base, h)` with coefficient `c * p`, then undo
— the undo (`--h[v']; --v[k]; ++h[v]`) leaves a zero-valued entry for the
incremented index when it was previously absent, exactly as the C++ does,
and that state is carried into the later iterations. -/
def hFactorLoop (k : Nat) (base : List Nat) (c : Int) :
    List (List Nat × Int) → IvMap → DiffTerms → IvMap × DiffTerms
  | [], h, tv => (h, tv)
  | (v, p) :: rest, h, tv =>
      if p = 0 then hFactorLoop k base c rest h tv
      else
        let h1 := if p = 1 then mapErase h v else mapAdd h v (-1)
        let v' := incAt v k
        let h2 := mapAdd h1 v' 1
        let tv' := addTerm tv (base, h2) (c * p)
        let h3 := mapAdd (mapAdd h2 v' (-1)) v 1
        hFactorLoop k base c rest h3 tv'

/-- Rule (iii): for every constraint `i`, increment the raw-partial axis of
the `i`-th dependent variable, add the first-order implicit factor `u`
(`u[k] = 1`, trailing entry `i`), record the term with coefficient `c`,
then undo — leaving a zero-valued entry for `u` that is carried into the
later constraint iterations (the C++ `--t.second[u]`). -/
def constrLoop (nvars k : Nat) (base : List Nat) (c : Int) :
    List Nat → IvMap → DiffTerms → DiffTerms
  | [], _, tv => tv
  | i :: rest, t2, tv =>
      let u := ((List.replicate (nvars + 1) 0).set k 1).set nvars i
      let t2a := mapAdd t2 u 1
      let tv' := addTerm tv (incAt base (nvars + i), t2a) c
      constrLoop nvars k base c rest (mapAdd t2a u (-1)) tv'

/-- The body of the `derive_diffterms` loop for one source term: rule (i)
(raw-partial axis `k` incremented, coefficient unchanged), then rule (ii)
over the term's implicit factors, then rule (iii) over the constraints
(starting again from the original map, `t.second = h_orig`). -/
def termContrib (nvars nconstr k : Nat) (t0 : DiffTerm) (c : Int)
    (tv : DiffTerms) : DiffTerms :=
  let tv1 := addTerm tv (incAt t0.1 k, t0.2) c
  let hr := hFactorLoop k t0.1 c t0.2 t0.2 tv1
  constrLoop nvars k t0.1 c (List.range nconstr) t0.2 hr.2

/-- One differentiation step of `derive_diffterms` (the code between the
trimming of `sig` and the tail call): fold the loop body over the input
expansion, building the new expansion `tv` from the empty map. -/
def derive_step (nvars nconstr k : Nat) (terms : DiffTerms) : DiffTerms :=
  terms.foldl (fun tv tc => termContrib nvars nconstr k tc.1 tc.2 tv) []

/-- `while (!sig.empty() && sig.back() == 0) sig.pop_back();` -/
def trimZeros (sig : List Nat) : List Nat :=
  (sig.reverse.dropWhile (fun x => x = 0)).reverse

/-- `--sig.back()` on the trimmed excess index. -/
def decLast (sig : List Nat) : List Nat :=
  sig.set (sig.length - 1) (sig.getD (sig.length - 1) 0 - 1)

/-- Source: `ipdiff::derive_diffterms(terms, sig)`, with the recursion depth
passed explicitly: each recursive call strictly decreases the sum of the
excess multi-index, so fuel `sum + 1` always suffices (proved below);
`none` is returned only on fuel exhaustion, which never happens at that
fuel. -/
def derive_diffterms (nvars nconstr : Nat) :
    Nat → DiffTerms → List Nat → Option DiffTerms
  | 0, _, _ => none
  | fuel + 1, terms, sig =>
      let sig' := trimZeros sig
      if sig' = [] then some terms
      else
        derive_diffterms nvars nconstr fuel
          (derive_step nvars nconstr (sig'.length - 1) terms) (decLast sig')

/-! ## Theorems: basic list helpers -/

theorem sum_ivector_eq_sum (v : List Nat) : sum_ivector v = v.sum := by
  rw [sum_ivector, List.sum_eq_foldl]

theorem getD_set_self (l : List Nat) (i x : Nat) (h : i < l.length) :
    (l.set i x).getD i 0 = x := by
  rw [List.getD_eq_getElem?_getD, List.getElem?_set_eq h]
  rfl

theorem getD_set_ne (l : List Nat) {i j : Nat} (x : Nat) (h : i ≠ j) :
    (l.set i x).getD j 0 = l.getD j 0 := by
  rw [List.getD_eq_getElem?_getD, List.getElem?_set_ne h, ← List.getD_eq_getElem?_getD]

theorem getD_zero_of_length_le (l : List Nat) (i : Nat) (h : l.length ≤ i) :
    l.getD i 0 = 0 := by
  rw [List.getD_eq_getElem?_getD, List.getElem?_eq_none h]
  rfl

theorem sum_ivector_set (l : List Nat) (i x : Nat) (h : i < l.length) :
    sum_ivector (l.set i x) + l.getD i 0 = sum_ivector l + x := by
  simp only [sum_ivector_eq_sum]
  induction l generalizing i with
  | nil => simp at h
  | cons a t ih =>
      cases i with
      | zero => simp [List.set]; omega
      | succ j =>
          simp only [List.set, List.sum_cons, List.getD_cons_succ]
          have := ih j (by simpa using h)
          omega

theorem getD_le_sum (l : List Nat) (i : Nat) : l.getD i 0 ≤ l.sum := by
  induction l generalizing i with
  | nil => simp
  | cons a t ih =>
      cases i with
      | zero => simp
      | succ j =>
          simp only [List.getD_cons_succ, List.sum_cons]
          exact le_trans (ih j) (by omega)

theorem eq_of_getD_eq {a b : List Nat} (hlen : a.length = b.length)
    (h : ∀ i, a.getD i 0 = b.getD i 0) : a = b := by
  apply List.ext_getElem hlen
  intro n h1 h2
  have := h n
  rwa [List.getD_eq_getElem a 0 h1, List.getD_eq_getElem b 0 h2] at this

theorem sum_le_of_getD_le {a b : List Nat} (hlen : a.length = b.length)
    (h : ∀ i, a.getD i 0 ≤ b.getD i 0) : a.sum ≤ b.sum := by
  induction a generalizing b with
  | nil =>
      cases b with
      | nil => simp
      | cons y t => simp at hlen
  | cons x t ih =>
      cases b with
      | nil => simp at hlen
      | cons y s =>
          simp only [List.sum_cons]
          have h0 := h 0
          simp only [List.getD_cons_zero] at h0
          have ht : t.sum ≤ s.sum := by
            apply ih (by simpa using hlen)
            intro i
            have := h (i + 1)
            simpa using this
          omega

theorem eq_of_getD_le_of_sum_eq {a b : List Nat} (hlen : a.length = b.length)
    (h : ∀ i, a.getD i 0 ≤ b.getD i 0) (hs : a.sum = b.sum) : a = b := by
  induction a generalizing b with
  | nil =>
      cases b with
      | nil => rfl
      | cons y t => simp at hlen
  | cons x t ih =>
      cases b with
      | nil => simp at hlen
      | cons y s =>
          have h0 := h 0
          simp only [List.getD_cons_zero] at h0
          have htail : ∀ i, t.getD i 0 ≤ s.getD i 0 := by
            intro i
            have := h (i + 1)
            simpa using this
          have hlent : t.length = s.length := by simpa using hlen
          have hts : t.sum ≤ s.sum := sum_le_of_getD_le hlent htail
          simp only [List.sum_cons] at hs
          have hx : x = y := by omega
          have hsum : t.sum = s.sum := by omega
          rw [hx, ih hlent htail hsum]

theorem set_self_of_getD (l : List Nat) (i x : Nat) (h : l.getD i 0 = x) :
    l.set i x = l := by
  by_cases hi : i < l.length
  · apply eq_of_getD_eq (by simp)
    intro j
    by_cases hj : i = j
    · subst hj
      rw [getD_set_self l i x hi, h]
    · exact getD_set_ne l x hj
  · exact List.set_eq_of_length_le (by omega)

theorem getD_replicate_zero (n i : Nat) : (List.replicate n 0).getD i 0 = 0 := by
  induction n generalizing i with
  | zero => simp
  | succ k ih =>
      cases i with
      | zero => simp [List.replicate]
      | succ j => simpa [List.replicate] using ih j

theorem sum_zero_eq_replicate {x : List Nat} {n : Nat} (hlen : x.length = n)
    (hs : x.sum = 0) : x = List.replicate n 0 := by
  apply eq_of_getD_eq (by simpa using hlen.symm ▸ (List.length_replicate n 0).symm ▸ rfl)
  intro i
  rw [getD_replicate_zero]
  by_cases hi : i < x.length
  · have hx := List.sum_eq_zero_iff.mp hs
    rw [List.getD_eq_getElem x 0 hi]
    exact hx _ (List.getElem_mem hi)
  · exact getD_zero_of_length_le x i (by omega)

/-! ## Theorems: ipartition characterization (claim C4) -/

theorem ipJLoop_mem
    (m n : Nat) (p : List Nat) (i : Nat)
    (hp : p.length = n) (hi : i < n) (hpi : p.getD i 0 = 0)
    (rec : List Nat → List (List Nat) → List (List Nat))
    (hrec : ∀ w c x, 0 < w → sum_ivector (p.set i w) < m →
        (x ∈ rec (p.set i w) c ↔ x ∈ c ∨ goodVec m n (p.set i w) x)) :
    ∀ fuelJ v c x,
      x ∈ ipJLoop m i rec fuelJ (p.set i v) c ↔
        x ∈ c ∨ (x.length = n ∧ sum_ivector x = m ∧ agreesFixed p x ∧
                  v < x.getD i 0 ∧ x.getD i 0 ≤ v + fuelJ) := by
  have hip : i < p.length := by omega
  have hlen_set : ∀ w, (p.set i w).length = n := by
    intro w; simp [hp]
  have hsum_set : ∀ w, sum_ivector (p.set i w) = sum_ivector p + w := by
    intro w
    have := sum_ivector_set p i w hip
    omega
  have hagree_set : ∀ w, agreesFixed p (p.set i w) := by
    intro w j hj
    have hne : i ≠ j := by
      intro he; rw [← he] at hj; exact hj hpi
    exact getD_set_ne p w hne
  have hlow : ∀ x, x.length = n → agreesFixed p x →
      sum_ivector p + x.getD i 0 ≤ sum_ivector x := by
    intro x hxl hxa
    have hle : ∀ j, (p.set i (x.getD i 0)).getD j 0 ≤ x.getD j 0 := by
      intro j
      by_cases hj : i = j
      · subst hj; rw [getD_set_self p i _ hip]
      · rw [getD_set_ne p _ hj]
        by_cases hz : p.getD j 0 = 0
        · rw [hz]; exact Nat.zero_le _
        · rw [hxa j hz]
    have := sum_le_of_getD_le (a := p.set i (x.getD i 0)) (b := x)
      (by rw [hlen_set, hxl]) hle
    have hss := hsum_set (x.getD i 0)
    simp only [sum_ivector_eq_sum] at hss this ⊢
    omega
  have hpin : ∀ x w, x.length = n → agreesFixed p x → x.getD i 0 = w →
      sum_ivector p + w = sum_ivector x → x = p.set i w := by
    intro x w hxl hxa hxi hxs
    symm
    apply eq_of_getD_le_of_sum_eq (by rw [hlen_set, hxl])
    · intro j
      by_cases hj : i = j
      · subst hj; rw [getD_set_self p i _ hip, hxi]
      · rw [getD_set_ne p _ hj]
        by_cases hz : p.getD j 0 = 0
        · rw [hz]; exact Nat.zero_le _
        · rw [hxa j hz]
    · have := hsum_set w
      simp only [sum_ivector_eq_sum] at this hxs ⊢
      omega
  intro fuelJ
  induction fuelJ with
  | zero =>
      intro v c x
      simp only [ipJLoop]
      constructor
      · intro hx; exact Or.inl hx
      · rintro (hx | ⟨_, _, _, h1, h2⟩)
        · exact hx
        · omega
  | succ fJ ih =>
      intro v c x
      have hr : (p.set i v).set i ((p.set i v).getD i 0 + 1) = p.set i (v + 1) := by
        rw [getD_set_self p i v hip, List.set_set]
      simp only [ipJLoop, hr]
      rcases Nat.lt_trichotomy (sum_ivector (p.set i (v + 1))) m with hlt | heq | hgt
      · rw [if_neg (by omega), if_pos hlt]
        rw [ih (v + 1) (rec (p.set i (v + 1)) c) x]
        rw [hrec (v + 1) c x (by omega) hlt]
        constructor
        · rintro ((hx | hg) | ⟨h1, h2, h3, h4, h5⟩)
          · exact Or.inl hx
          · obtain ⟨g1, g2, g3, _⟩ := hg
            refine Or.inr ⟨g1, g2, ?_, ?_, ?_⟩
            · intro j hj
              have hne : i ≠ j := by
                intro he; rw [← he] at hj; exact hj hpi
              have := g3 j (by rwa [getD_set_ne p _ hne])
              rwa [getD_set_ne p _ hne] at this
            · have := g3 i (by rw [getD_set_self p i _ hip]; omega)
              rw [getD_set_self p i _ hip] at this
              omega
            · have := g3 i (by rw [getD_set_self p i _ hip]; omega)
              rw [getD_set_self p i _ hip] at this
              omega
          · exact Or.inr ⟨h1, h2, h3, by omega, by omega⟩
        · rintro (hx | ⟨h1, h2, h3, h4, h5⟩)
          · exact Or.inl (Or.inl hx)
          · by_cases hxi : x.getD i 0 = v + 1
            · refine Or.inl (Or.inr ⟨h1, h2, ?_, ?_⟩)
              · intro j hj
                by_cases hji : i = j
                · subst hji
                  rw [getD_set_self p i _ hip, hxi]
                · rw [getD_set_ne p _ hji] at hj ⊢
                  exact h3 j hj
              · intro hcontra
                have hcs : sum_ivector x = sum_ivector (p.set i (v + 1)) := by
                  rw [hcontra]
                omega
            · exact Or.inr ⟨h1, h2, h3, by omega, by omega⟩
      · rw [if_pos heq]
        rw [ih (v + 1) _ x]
        have hmemc' : x ∈ (if p.set i (v + 1) ∈ c then c
            else c.concat (p.set i (v + 1))) ↔ x ∈ c ∨ x = p.set i (v + 1) := by
          by_cases hin : p.set i (v + 1) ∈ c
          · rw [if_pos hin]
            constructor
            · exact fun h => Or.inl h
            · rintro (h | h)
              · exact h
              · rw [h]; exact hin
          · rw [if_neg hin]
            simp [List.concat_eq_append]
        rw [hmemc']
        constructor
        · rintro ((hx | hr') | ⟨h1, h2, h3, h4, h5⟩)
          · exact Or.inl hx
          · subst hr'
            refine Or.inr ⟨hlen_set _, heq, hagree_set _, ?_, ?_⟩
            · rw [getD_set_self p i _ hip]; omega
            · rw [getD_set_self p i _ hip]; omega
          · exact Or.inr ⟨h1, h2, h3, by omega, by omega⟩
        · rintro (hx | ⟨h1, h2, h3, h4, h5⟩)
          · exact Or.inl (Or.inl hx)
          · by_cases hxi : x.getD i 0 = v + 1
            · refine Or.inl (Or.inr (hpin x (v + 1) h1 h3 hxi ?_))
              have := hsum_set (v + 1)
              omega
            · exact Or.inr ⟨h1, h2, h3, by omega, by omega⟩
      · rw [if_neg (by omega), if_neg (by omega)]
        constructor
        · exact fun hx => Or.inl hx
        · rintro (hx | ⟨h1, h2, h3, h4, _⟩)
          · exact hx
          · exfalso
            have := hlow x h1 h3
            have := hsum_set (v + 1)
            omega

theorem ipILoop_mem (m n : Nat) (p : List Nat) (hp : p.length = n)
    (rec : List Nat → List (List Nat) → List (List Nat))
    (hrec : ∀ i w c x, i < n → p.getD i 0 = 0 → 0 < w →
        sum_ivector (p.set i w) < m →
        (x ∈ rec (p.set i w) c ↔ x ∈ c ∨ goodVec m n (p.set i w) x)) :
    ∀ is c x, (∀ i ∈ is, i < n) →
      (x ∈ ipILoop m p rec is c ↔ x ∈ c ∨ (x.length = n ∧ sum_ivector x = m ∧
        agreesFixed p x ∧ ∃ i ∈ is, p.getD i 0 = 0 ∧ 0 < x.getD i 0)) := by
  intro is
  induction is with
  | nil =>
      intro c x _
      simp [ipILoop]
  | cons i rest ih =>
      intro c x hbound
      have hin : i < n := hbound i (by simp)
      have hbr : ∀ j ∈ rest, j < n := fun j hj => hbound j (by simp [hj])
      simp only [ipILoop]
      by_cases hfix : p.getD i 0 ≠ 0
      · rw [if_pos hfix]
        rw [ih c x hbr]
        constructor
        · rintro (hx | ⟨h1, h2, h3, j, hj, hj0, hjp⟩)
          · exact Or.inl hx
          · exact Or.inr ⟨h1, h2, h3, j, by simp [hj], hj0, hjp⟩
        · rintro (hx | ⟨h1, h2, h3, j, hj, hj0, hjp⟩)
          · exact Or.inl hx
          · rcases List.mem_cons.mp hj with hji | hjr
            · exact absurd hj0 (hji ▸ hfix)
            · exact Or.inr ⟨h1, h2, h3, j, hjr, hj0, hjp⟩
      · rw [if_neg hfix]
        push_neg at hfix
        have hself : p.set i 0 = p := set_self_of_getD p i 0 hfix
        have hj := ipJLoop_mem m n p i hp hin hfix rec
          (fun w c' x' hw hs => hrec i w c' x' hin hfix hw hs) m 0 c x
        rw [hself] at hj
        rw [ih _ x hbr, hj]
        constructor
        · rintro ((hx | ⟨h1, h2, h3, h4, _⟩) | ⟨h1, h2, h3, j, hjr, hj0, hjp⟩)
          · exact Or.inl hx
          · exact Or.inr ⟨h1, h2, h3, i, by simp, hfix, h4⟩
          · exact Or.inr ⟨h1, h2, h3, j, by simp [hjr], hj0, hjp⟩
        · rintro (hx | ⟨h1, h2, h3, j, hj, hj0, hjp⟩)
          · exact Or.inl (Or.inl hx)
          · rcases List.mem_cons.mp hj with hji | hjr
            · rw [hji] at hjp
              refine Or.inl (Or.inr ⟨h1, h2, h3, hjp, ?_⟩)
              have := getD_le_sum x i
              rw [sum_ivector_eq_sum] at h2
              omega
            · exact Or.inr ⟨h1, h2, h3, j, hjr, hj0, hjp⟩

theorem ipartitionF_mem (fuel : Nat) :
    ∀ (m n : Nat) (p : List Nat) (c : List (List Nat)) (x : List Nat),
      p.length = n → m - sum_ivector p < fuel →
      (x ∈ ipartitionF fuel m n p c ↔ x ∈ c ∨ goodVec m n p x) := by
  induction fuel with
  | zero => intro m n p c x _ hf; omega
  | succ f ih =>
      intro m n p c x hp hf
      simp only [ipartitionF]
      have hrec : ∀ i w c' x', i < n → p.getD i 0 = 0 → 0 < w →
          sum_ivector (p.set i w) < m →
          (x' ∈ ipartitionF f m n (p.set i w) c' ↔
            x' ∈ c' ∨ goodVec m n (p.set i w) x') := by
        intro i w c' x' hin hfix hw hs
        apply ih m n (p.set i w) c' x' (by simp [hp])
        have := sum_ivector_set p i w (by omega)
        rw [hfix] at this
        omega
      rw [ipILoop_mem m n p hp (ipartitionF f m n) hrec (List.range n) c x
        (fun j hj => List.mem_range.mp hj)]
      constructor
      · rintro (hx | ⟨h1, h2, h3, j, _, hj0, hjp⟩)
        · exact Or.inl hx
        · refine Or.inr ⟨h1, h2, h3, ?_⟩
          intro hcontra
          rw [hcontra] at hjp
          omega
      · rintro (hx | ⟨h1, h2, h3, hne⟩)
        · exact Or.inl hx
        · refine Or.inr ⟨h1, h2, h3, ?_⟩
          by_contra hno
          push_neg at hno
          apply hne
          apply eq_of_getD_eq (by rw [h1, hp])
          intro j
          by_cases hjn : j < n
          · by_cases hz : p.getD j 0 = 0
            · have := hno j (List.mem_range.mpr hjn) hz
              omega
            · exact h3 j hz
          · rw [getD_zero_of_length_le x j (by omega),
              getD_zero_of_length_le p j (by omega)]

theorem ipJLoop_nodup (m i : Nat)
    (rec : List Nat → List (List Nat) → List (List Nat))
    (hrec : ∀ r c, c.Nodup → (rec r c).Nodup) :
    ∀ fuelJ r c, c.Nodup → (ipJLoop m i rec fuelJ r c).Nodup := by
  intro fuelJ
  induction fuelJ with
  | zero => intro r c hc; simpa [ipJLoop] using hc
  | succ fJ ih =>
      intro r c hc
      simp only [ipJLoop]
      split
      · apply ih
        split
        · exact hc
        · rename_i hnin
          rw [List.concat_eq_append]
          refine List.Nodup.append hc (List.nodup_singleton _) ?_
          intro y hy hy'
          rw [List.mem_singleton] at hy'
          rw [hy'] at hy
          exact hnin hy
      · split
        · exact ih _ _ (hrec _ _ hc)
        · exact hc

theorem ipILoop_nodup (m : Nat) (p : List Nat)
    (rec : List Nat → List (List Nat) → List (List Nat))
    (hrec : ∀ r c, c.Nodup → (rec r c).Nodup) :
    ∀ is c, c.Nodup → (ipILoop m p rec is c).Nodup := by
  intro is
  induction is with
  | nil => intro c hc; simpa [ipILoop] using hc
  | cons i rest ih =>
      intro c hc
      simp only [ipILoop]
      apply ih
      split
      · exact hc
      · exact ipJLoop_nodup m i rec hrec m p c hc

theorem ipartitionF_nodup (fuel : Nat) :
    ∀ (m n : Nat) (p : List Nat) (c : List (List Nat)),
      c.Nodup → (ipartitionF fuel m n p c).Nodup := by
  induction fuel with
  | zero => intro m n p c hc; simpa [ipartitionF] using hc
  | succ f ih =>
      intro m n p c hc
      simp only [ipartitionF]
      exact ipILoop_nodup m p (ipartitionF f m n) (fun r c' => ih m n r c') _ c hc

/-- C4 counterexample: the claim asserts that for target order `m = 0` the
output set of `ipartition` consists of exactly the all-zero vector; in fact the
inner loop of the source runs `m` times and for `m = 0` never pushes anything,
so the output is empty and in particular does not contain the zero vector. -/
theorem ipartition_order_zero_cex :
    (List.replicate 2 0 ∉ ipartition 0 2) ∧ ipartition 0 2 = [] := by
  constructor
  · decide
  · decide

/-- C4 (amended): for every target order, variable count and partially fixed
partition `p` of length `n`, `ipartition` (run with fuel `m + 1`, which the
sum-increasing recursion never exhausts) produces exactly the vectors of
length `n` with component sum `m` that agree with the fixed (non-zero)
coordinates of `p` and differ from `p` itself, appended to the accumulator
without duplicates; consequently the top-level call (empty fixed partition)
produces exactly the length-`n` vectors of sum `m` other than the all-zero
vector, so for `m = 0` the output is empty rather than the singleton
all-zero vector. -/
theorem ipartition_spec (m n : Nat) (p : List Nat) (c : List (List Nat))
    (x : List Nat) (hp : p.length = n) (hc : c.Nodup) :
    (x ∈ ipartitionF (m + 1) m n p c ↔ x ∈ c ∨ goodVec m n p x) ∧
    (ipartitionF (m + 1) m n p c).Nodup ∧
    (x ∈ ipartition m n ↔ x.length = n ∧ sum_ivector x = m ∧ x ≠ List.replicate n 0) ∧
    ipartition 0 n = [] := by
  refine ⟨ipartitionF_mem (m + 1) m n p c x hp (by omega),
    ipartitionF_nodup (m + 1) m n p c hc, ?_, ?_⟩
  · have hmem := ipartitionF_mem (m + 1) m n (List.replicate n 0) [] x
      (by simp) (by omega)
    rw [ipartition, hmem]
    simp only [List.not_mem_nil, false_or]
    constructor
    · rintro ⟨h1, h2, _, h4⟩
      exact ⟨h1, h2, h4⟩
    · rintro ⟨h1, h2, h4⟩
      refine ⟨h1, h2, ?_, h4⟩
      intro j hj
      rw [getD_replicate_zero] at hj
      exact absurd rfl hj
  · rw [List.eq_nil_iff_forall_not_mem]
    intro y hy
    have hmem := ipartitionF_mem 1 0 n (List.replicate n 0) [] y (by simp) (by omega)
    rw [ipartition] at hy
    rw [hmem] at hy
    rcases hy with hy | ⟨h1, h2, _, h4⟩
    · simp at hy
    · apply h4
      rw [sum_ivector_eq_sum] at h2
      exact sum_zero_eq_replicate h1 h2

/-- Witness for `ipartition_spec`: instantiate at `m = 1`, `n = 1`,
`p = [0]`, `c = []`, `x = [1]` and discharge the hypotheses by computation. -/
theorem ipartition_spec_witness :
    (([0] : List Nat).length = 1 ∧ ([] : List (List Nat)).Nodup) ∧
    ((([1] : List Nat) ∈ ipartitionF 2 1 1 [0] [] ↔
        ([1] : List Nat) ∈ ([] : List (List Nat)) ∨ goodVec 1 1 [0] [1]) ∧
      (ipartitionF 2 1 1 [0] []).Nodup ∧
      (([1] : List Nat) ∈ ipartition 1 1 ↔
        ([1] : List Nat).length = 1 ∧ sum_ivector [1] = 1 ∧
          ([1] : List Nat) ≠ List.replicate 1 0) ∧
      ipartition 0 1 = []) :=
  ⟨⟨by decide, by decide⟩, ipartition_spec 1 1 [0] [] [1] (by decide) (by decide)⟩

/-! ## Theorems: Taylor summation (claim C8) -/

theorem foldl_add_eq_sum {V : Type} [AddCommMonoid V] (l : List V) :
    l.foldl (· + ·) 0 = l.sum :=
  List.sum_eq_foldl.symm

/-- C8: `taylor(a, 0)` equals the objective with its variables substituted by
the point (the `substF` oracle value); for every order `k`, `taylor(a, k)`
equals the sum of `taylor_term(a, j)` for `j = 0..k`; and that value is
invariant under permuting the order in which the Taylor terms of the
different degrees are added. -/
theorem taylor_spec {V : Type} [AddCommMonoid V] (nvars : Nat)
    (substF : V) (pdval : List Nat → V) (k : Nat) :
    taylor nvars substF pdval 0 = substF ∧
    taylor nvars substF pdval k =
      ((List.range (k + 1)).map (taylor_term nvars substF pdval)).sum ∧
    ∀ l : List Nat, l.Perm (List.range (k + 1)) →
      (l.map (taylor_term nvars substF pdval)).sum = taylor nvars substF pdval k := by
  refine ⟨?_, ?_, ?_⟩
  · rw [taylor]
    have h1 : List.range 1 = [0] := by decide
    rw [h1]
    simp [taylor_term]
  · rw [taylor, foldl_add_eq_sum]
  · intro l hl
    rw [taylor, foldl_add_eq_sum]
    exact (hl.map (taylor_term nvars substF pdval)).sum_eq

/-- Witness for `taylor_spec`: the permutation hypothesis is discharged at the
concrete list `[1, 0]` against `range 2`, with `V = Nat` and constant
oracles. -/
theorem taylor_spec_witness :
    ([1, 0] : List Nat).Perm (List.range 2) ∧
    (([1, 0].map (taylor_term 1 (5 : Nat) (fun _ => 3))).sum =
      taylor 1 (5 : Nat) (fun _ => 3) 1) :=
  ⟨by decide, (taylor_spec 1 (5 : Nat) (fun _ => 3) 1).2.2 [1, 0] (by decide)⟩

/-! ## Theorems: bordered-Hessian minor test (claim C1) -/

theorem neg_one_pow_ne_zero (m : Nat) : ((-1 : Int)) ^ m ≠ 0 := by
  rcases Nat.even_or_odd m with h | h
  · rw [h.neg_one_pow]; decide
  · rw [h.neg_one_pow]; decide

theorem neg_one_pow_mul_self (m : Nat) : ((-1 : Int)) ^ m * (-1) ^ m = 1 := by
  rw [← pow_add]
  have h : Even (m + m) := ⟨m, rfl⟩
  exact h.neg_one_pow

theorem classifyMinorsFrom_zero_mem (m : Nat) (signs : List Int) (hz : 0 ∈ signs) :
    ∀ k cls, classifyMinorsFrom m k cls signs = .UNDECIDED := by
  induction signs with
  | nil => simp at hz
  | cons s rest ih =>
      intro k cls
      rcases List.mem_cons.mp hz with h0 | h0
      · simp [classifyMinorsFrom, ← h0]
      · simp only [classifyMinorsFrom]
        split
        · rfl
        · split
          · exact ih h0 (k + 1) cls
          · exact ih h0 (k + 1) _

theorem classifyMinorsFrom_saddle (m : Nat) (signs : List Int)
    (hnz : ∀ s ∈ signs, s ≠ 0) :
    ∀ k, classifyMinorsFrom m k .SADDLE signs = .SADDLE := by
  induction signs with
  | nil => intro k; rfl
  | cons s rest ih =>
      intro k
      have hs : s ≠ 0 := hnz s (by simp)
      simp only [classifyMinorsFrom, if_neg hs, if_pos rfl]
      exact ih (fun x hx => hnz x (by simp [hx])) (k + 1)

theorem classifyMinorsFrom_min_pos (m : Nat) (signs : List Int)
    (hpat : minPattern m signs = true) :
    ∀ k, classifyMinorsFrom m k .MIN signs = .MIN := by
  induction signs with
  | nil => intro k; rfl
  | cons s rest ih =>
      intro k
      rw [minPattern, List.all_cons, Bool.and_eq_true] at hpat
      have hs : s = (-1 : Int) ^ m := by
        have := hpat.1
        exact of_decide_eq_true this
      have hs0 : s ≠ 0 := hs ▸ neg_one_pow_ne_zero m
      have hpos : 0 < s * (-1 : Int) ^ m := by
        rw [hs, neg_one_pow_mul_self]; decide
      simp only [classifyMinorsFrom, if_neg hs0]
      rw [if_neg (by decide : ¬ (CPClass.MIN = CPClass.SADDLE)),
        if_pos ⟨by decide, hpos⟩]
      exact ih hpat.2 (k + 1)

theorem classifyMinorsFrom_min_neg (m : Nat) (signs : List Int)
    (hnz : ∀ s ∈ signs, s = 1 ∨ s = -1)
    (hpat : minPattern m signs = false) :
    ∀ k, classifyMinorsFrom m k .MIN signs = .SADDLE := by
  induction signs with
  | nil => simp [minPattern] at hpat
  | cons s rest ih =>
      intro k
      have hs1 : s = 1 ∨ s = -1 := hnz s (by simp)
      have hs0 : s ≠ 0 := by rcases hs1 with h | h <;> simp [h]
      simp only [classifyMinorsFrom, if_neg hs0]
      rw [if_neg (by decide : ¬ (CPClass.MIN = CPClass.SADDLE))]
      by_cases hsm : s = (-1 : Int) ^ m
      · have hpos : 0 < s * (-1 : Int) ^ m := by
          rw [hsm, neg_one_pow_mul_self]; decide
        rw [if_pos ⟨by decide, hpos⟩]
        have hrest : minPattern m rest = false := by
          rw [minPattern, List.all_cons] at hpat
          simp only [Bool.and_eq_false_iff] at hpat
          rcases hpat with h | h
          · exact absurd hsm (by simpa using h)
          · exact h
        exact ih (fun x hx => hnz x (by simp [hx])) hrest (k + 1)
      · have hneg : s * (-1 : Int) ^ m = -1 := by
          rcases Nat.even_or_odd m with hm | hm <;>
            rcases hs1 with h | h <;>
              simp [h, hm.neg_one_pow] at hsm ⊢ <;> omega
        rw [if_neg (by rw [hneg]; decide)]
        have hmk : ¬ (CPClass.MIN ≠ CPClass.MIN ∧ 0 < s * (-1 : Int) ^ (m + k)) := by
          rintro ⟨h, _⟩; exact h rfl
        rw [if_neg hmk]
        exact classifyMinorsFrom_saddle m rest
          (fun x hx => by
            rcases hnz x (by simp [hx]) with h | h <;> simp [h]) (k + 1)

theorem classifyMinorsFrom_max_pos (m : Nat) (signs : List Int) :
    ∀ k, maxPattern m k signs = true → classifyMinorsFrom m k .MAX signs = .MAX := by
  induction signs with
  | nil => intro k _; rfl
  | cons s rest ih =>
      intro k hpat
      rw [maxPattern, Bool.and_eq_true] at hpat
      have hs : s = (-1 : Int) ^ (m + k) := of_decide_eq_true hpat.1
      have hs0 : s ≠ 0 := hs ▸ neg_one_pow_ne_zero (m + k)
      have hpos : 0 < s * (-1 : Int) ^ (m + k) := by
        rw [hs, neg_one_pow_mul_self]; decide
      simp only [classifyMinorsFrom, if_neg hs0]
      rw [if_neg (by decide : ¬ (CPClass.MAX = CPClass.SADDLE))]
      rw [if_neg (by rintro ⟨h, _⟩; exact h rfl), if_pos ⟨by decide, hpos⟩]
      exact ih (k + 1) hpat.2

theorem classifyMinorsFrom_max_neg (m : Nat) (signs : List Int)
    (hnz : ∀ s ∈ signs, s = 1 ∨ s = -1) :
    ∀ k, maxPattern m k signs = false → classifyMinorsFrom m k .MAX signs = .SADDLE := by
  induction signs with
  | nil => intro k hpat; simp [maxPattern] at hpat
  | cons s rest ih =>
      intro k hpat
      have hs1 : s = 1 ∨ s = -1 := hnz s (by simp)
      have hs0 : s ≠ 0 := by rcases hs1 with h | h <;> simp [h]
      simp only [classifyMinorsFrom, if_neg hs0]
      rw [if_neg (by decide : ¬ (CPClass.MAX = CPClass.SADDLE))]
      rw [if_neg (by rintro ⟨h, _⟩; exact h rfl)]
      by_cases hsm : s = (-1 : Int) ^ (m + k)
      · have hpos : 0 < s * (-1 : Int) ^ (m + k) := by
          rw [hsm, neg_one_pow_mul_self]; decide
        rw [if_pos ⟨by decide, hpos⟩]
        have hrest : maxPattern m (k + 1) rest = false := by
          rw [maxPattern, Bool.and_eq_false_iff] at hpat
          rcases hpat with h | h
          · exact absurd hsm (by simpa using h)
          · exact h
        exact ih (fun x hx => hnz x (by simp [hx])) (k + 1) hrest
      · have hneg : s * (-1 : Int) ^ (m + k) = -1 := by
          rcases Nat.even_or_odd (m + k) with hm | hm <;>
            rcases hs1 with h | h <;>
              simp [h, hm.neg_one_pow] at hsm ⊢ <;> omega
        rw [if_neg (by rw [hneg]; decide)]
        exact classifyMinorsFrom_saddle m rest
          (fun x hx => by
            rcases hnz x (by simp [hx]) with h | h <;> simp [h]) (k + 1)

/-- C1 counterexample: with one constraint present and requested test order 1,
`find_local_extrema` takes the implicit-differentiation branch (eigenvalue /
Taylor tests) and never builds the bordered Hessian — the bordered-Hessian
minor test is the `order_size == 0` (Lagrange) branch, contradicting the
claim's "test order at least 1". -/
theorem bordered_hessian_dispatch_cex :
    find_local_extrema_method 1 1 = .implicitDiff ∧
    find_local_extrema_method 1 1 ≠ .lagrangeBorderedHessian := by
  constructor
  · decide
  · decide

/-- C1 (amended): the bordered-Hessian minor test of `find_local_extrema` runs
exactly when constraints are present and the requested test order is 0 (the
`lagrange` mode), not ≥ 1; within the test, the sign of the leading principal
minors of sizes `2m + k` (`k = 1..n`, i.e. of increasing size starting after
the border) is inspected in order: a zero minor determinant forces UNDECIDED
and stops the test (whatever follows the zero is irrelevant); across nonzero
signs, the constant pattern `(-1)^m` yields MIN, the alternating pattern
`(-1)^(m+k)` yields MAX, and any other (inconsistent) pattern yields
SADDLE. -/
theorem find_local_extrema_classifier_spec (m order_size : Nat) (signs : List Int) :
    (find_local_extrema_method order_size m = .lagrangeBorderedHessian ↔
      order_size = 0 ∧ 0 < m) ∧
    (0 ∈ signs → classifyMinors m signs = .UNDECIDED) ∧
    ((∀ s ∈ signs, s = 1 ∨ s = -1) → signs ≠ [] →
      (classifyMinors m signs = .MIN ↔ minPattern m signs = true) ∧
      (classifyMinors m signs = .MAX ↔ maxPattern m 1 signs = true) ∧
      (minPattern m signs = false → maxPattern m 1 signs = false →
        classifyMinors m signs = .SADDLE)) := by
  refine ⟨?_, ?_, ?_⟩
  · rw [find_local_extrema_method]
    constructor
    · intro h
      by_contra hc
      rw [if_neg hc] at h
      split at h <;> simp at h
    · intro h
      rw [if_pos h]
  · intro hz
    exact classifyMinorsFrom_zero_mem m signs hz 1 .UNDECIDED
  · intro hnz hne
    have htri : classifyMinors m signs =
        (if minPattern m signs = true then .MIN
         else if maxPattern m 1 signs = true then .MAX else .SADDLE) := by
      obtain ⟨s, rest, rfl⟩ := List.exists_cons_of_ne_nil hne
      have hs1 : s = 1 ∨ s = -1 := hnz s (by simp)
      have hs0 : s ≠ 0 := by rcases hs1 with h | h <;> simp [h]
      have hrestnz : ∀ x ∈ rest, x = 1 ∨ x = -1 :=
        fun x hx => hnz x (by simp [hx])
      rw [classifyMinors]
      simp only [classifyMinorsFrom, if_neg hs0]
      rw [if_neg (by decide : ¬ (CPClass.UNDECIDED = CPClass.SADDLE))]
      by_cases hsm : s = (-1 : Int) ^ m
      · have hpos : 0 < s * (-1 : Int) ^ m := by
          rw [hsm, neg_one_pow_mul_self]; decide
        rw [if_pos ⟨by decide, hpos⟩]
        have hmaxhead : maxPattern m 1 (s :: rest) = false := by
          rw [maxPattern, Bool.and_eq_false_iff]
          left
          simp only [decide_eq_false_iff_not]
          rw [hsm, pow_succ]
          intro hcontra
          have := neg_one_pow_ne_zero m
          have h1 : ((-1 : Int)) ^ m = 0 ∨ (2 : Int) = 0 := by
            rcases Nat.even_or_odd m with hm | hm <;>
              simp [hm.neg_one_pow] at hcontra ⊢ <;> omega
          rcases h1 with h | h
          · exact this h
          · simp at h
        rw [hmaxhead]
        by_cases hminr : minPattern m rest = true
        · have : minPattern m (s :: rest) = true := by
            rw [minPattern, List.all_cons, Bool.and_eq_true]
            exact ⟨decide_eq_true hsm, hminr⟩
          rw [this, if_pos rfl]
          exact classifyMinorsFrom_min_pos m rest hminr 2
        · have hminrf : minPattern m rest = false := by
            cases h : minPattern m rest
            · rfl
            · exact absurd h hminr
          have : minPattern m (s :: rest) = false := by
            rw [minPattern, List.all_cons, Bool.and_eq_false_iff]
            right
            exact hminrf
          rw [this]
          simp only [Bool.false_eq_true, if_false]
          exact classifyMinorsFrom_min_neg m rest hrestnz hminrf 2
      · have hneg : s * (-1 : Int) ^ m = -1 := by
          rcases Nat.even_or_odd m with hm | hm <;>
            rcases hs1 with h | h <;>
              simp [h, hm.neg_one_pow] at hsm ⊢ <;> omega
        rw [if_neg (by rw [hneg]; decide)]
        have hsmax : s = (-1 : Int) ^ (m + 1) := by
          rcases Nat.even_or_odd m with hm | hm <;>
            rcases hs1 with h | h <;>
              simp [h, hm.neg_one_pow, pow_succ] at hsm ⊢ <;> omega
        have hpos : 0 < s * (-1 : Int) ^ (m + 1) := by
          rw [hsmax, neg_one_pow_mul_self]; decide
        rw [if_pos ⟨by decide, hpos⟩]
        have hminhead : minPattern m (s :: rest) = false := by
          rw [minPattern, List.all_cons, Bool.and_eq_false_iff]
          left
          simpa using hsm
        rw [hminhead]
        simp only [Bool.false_eq_true, if_false]
        by_cases hmaxr : maxPattern m 2 rest = true
        · have : maxPattern m 1 (s :: rest) = true := by
            rw [maxPattern, Bool.and_eq_true]
            exact ⟨decide_eq_true hsmax, hmaxr⟩
          rw [this, if_pos rfl]
          exact classifyMinorsFrom_max_pos m rest 2 hmaxr
        · have hmaxrf : maxPattern m 2 rest = false := by
            cases h : maxPattern m 2 rest
            · rfl
            · exact absurd h hmaxr
          have : maxPattern m 1 (s :: rest) = false := by
            rw [maxPattern, Bool.and_eq_false_iff]
            right
            exact hmaxrf
          rw [this]
          simp only [Bool.false_eq_true, if_false]
          exact classifyMinorsFrom_max_neg m rest hrestnz 2 hmaxrf
    refine ⟨?_, ?_, ?_⟩
    · constructor
      · intro h
        rw [htri] at h
        by_cases hb : minPattern m signs = true
        · exact hb
        · exfalso
          rw [if_neg hb] at h
          split at h
          · exact absurd h (by decide)
          · exact absurd h (by decide)
      · intro h
        rw [htri, if_pos h]
    · constructor
      · intro h
        rw [htri] at h
        by_cases hb1 : minPattern m signs = true
        · rw [if_pos hb1] at h
          exact absurd h (by decide)
        · rw [if_neg hb1] at h
          by_cases hb2 : maxPattern m 1 signs = true
          · exact hb2
          · rw [if_neg hb2] at h
            exact absurd h (by decide)
      · intro h
        have hmin : minPattern m signs = false := by
          obtain ⟨s, rest, rfl⟩ := List.exists_cons_of_ne_nil hne
          rw [maxPattern, Bool.and_eq_true] at h
          have hsmax : s = (-1 : Int) ^ (m + 1) := of_decide_eq_true h.1
          rw [minPattern, List.all_cons, Bool.and_eq_false_iff]
          left
          simp only [decide_eq_false_iff_not]
          rw [hsmax]
          rcases Nat.even_or_odd m with hm | hm <;>
            simp [hm.neg_one_pow, pow_succ] <;> omega
        rw [htri, hmin]
        simp only [Bool.false_eq_true, if_false]
        rw [h, if_pos rfl]
    · intro h1 h2
      rw [htri, h1, h2]
      simp

/-- Witness for `find_local_extrema_classifier_spec`: the hypotheses on the
signs are discharged for `m = 1` and the concrete list `[-1, -1]`, which
matches the MIN pattern `(-1)^1`. -/
theorem find_local_extrema_classifier_spec_witness :
    ((∀ s ∈ ([-1, -1] : List Int), s = 1 ∨ s = -1) ∧ ([-1, -1] : List Int) ≠ []) ∧
    ((classifyMinors 1 [-1, -1] = .MIN ↔ minPattern 1 [-1, -1] = true) ∧
      (classifyMinors 1 [-1, -1] = .MAX ↔ maxPattern 1 1 [-1, -1] = true) ∧
      (minPattern 1 [-1, -1] = false → maxPattern 1 1 [-1, -1] = false →
        classifyMinors 1 [-1, -1] = .SADDLE)) :=
  ⟨⟨by decide, by decide⟩,
    (find_local_extrema_classifier_spec 1 0 [-1, -1]).2.2 (by decide) (by decide)⟩

/-! ## Theorems: cross-arrangement accumulation (claim C2) -/

theorem lookupClass_setClass_self {P : Type} [DecidableEq P]
    (cpts : List (P × CPClass)) (pt : P) (v : CPClass) :
    lookupClass (setClass cpts pt v) pt = v := by
  induction cpts with
  | nil => simp [setClass, lookupClass]
  | cons e rest ih =>
      by_cases h : e.1 = pt
      · simp [setClass, lookupClass, h]
      · simp only [setClass, if_neg h, lookupClass, ih]

theorem lookupClass_setClass_ne {P : Type} [DecidableEq P]
    (cpts : List (P × CPClass)) (pt q : P) (v : CPClass) (hq : q ≠ pt) :
    lookupClass (setClass cpts pt v) q = lookupClass cpts q := by
  induction cpts with
  | nil =>
      simp only [setClass, lookupClass]
      rw [if_neg (fun h => hq h.symm)]
  | cons e rest ih =>
      by_cases h : e.1 = pt
      · simp only [setClass, if_pos h, lookupClass]
        rw [if_neg (fun hc => hq hc.symm), if_neg (by rw [h]; exact fun hc => hq hc.symm)]
      · simp only [setClass, if_neg h, lookupClass, ih]

/-- C2 counterexample: a point already holding the provisional POSSIBLE_MIN
verdict is not upgraded by a later arrangement computing the definitive MIN
verdict — the accumulation step keeps every non-UNDECIDED value, so the
claim's "a POSSIBLE verdict may be upgraded by a later arrangement" fails. -/
theorem possible_not_upgraded_cex :
    classUpdate 5 .POSSIBLE_MIN .MIN = .POSSIBLE_MIN ∧
    classUpdate 5 .POSSIBLE_MIN .MIN ≠ .MIN := by
  constructor
  · decide
  · decide

/-- C2 (amended): in the map from candidate point to classification
accumulated across variable arrangements, a point holding any non-UNDECIDED
verdict — definitive (MIN/MAX/SADDLE) or provisional (POSSIBLE_MIN,
POSSIBLE_MAX) — is never replaced by a later arrangement; only a point
holding UNDECIDED may be upgraded, and it is (when the requested test order
is not 1) replaced by whatever the later arrangement computes.  Other map
entries are untouched by the step. -/
theorem cpts_accumulation_spec {P : Type} [DecidableEq P] (order_size : Nat)
    (cur newc : CPClass) (cpts : List (P × CPClass)) (pt : P) :
    (cur = .MIN ∨ cur = .MAX ∨ cur = .SADDLE → classUpdate order_size cur newc = cur) ∧
    (cur ≠ .UNDECIDED → classUpdate order_size cur newc = cur) ∧
    (order_size ≠ 1 → classUpdate order_size .UNDECIDED newc = newc) ∧
    lookupClass (cptsProcess order_size cpts pt newc) pt =
      classUpdate order_size (lookupClass cpts pt) newc ∧
    (∀ q, q ≠ pt → lookupClass (cptsProcess order_size cpts pt newc) q =
      lookupClass cpts q) := by
  refine ⟨?_, ?_, ?_, ?_, ?_⟩
  · intro h
    rcases h with h | h | h <;> (rw [h]; rw [classUpdate, if_pos (Or.inr (by decide))])
  · intro h
    rw [classUpdate, if_pos (Or.inr ?_)]
    cases cur
    · exact absurd rfl h
    all_goals decide
  · intro h
    rw [classUpdate, if_neg]
    rintro (hc | hc)
    · exact h hc
    · exact hc rfl
  · exact lookupClass_setClass_self cpts pt _
  · intro q hq
    exact lookupClass_setClass_ne cpts pt q _ hq

/-- Witness for `cpts_accumulation_spec`: instantiated with `P = Nat`, a
definitive current verdict MIN and a later UNDECIDED computation. -/
theorem cpts_accumulation_spec_witness :
    (CPClass.MIN = .MIN ∨ CPClass.MIN = .MAX ∨ CPClass.MIN = .SADDLE) ∧
    classUpdate 5 .MIN .UNDECIDED = .MIN :=
  ⟨Or.inl rfl,
    (cpts_accumulation_spec 5 .MIN .UNDECIDED ([] : List (Nat × CPClass)) 0).1 (Or.inl rfl)⟩

/-! ## Theorems: KKT pattern enumeration (claim C3) -/

theorem getD_append_len {α : Type} (l : List α) (b : α) (r : List α) (d : α) :
    (l ++ b :: r).getD l.length d = b := by
  induction l with
  | nil => rfl
  | cons a t ih => simpa using ih

theorem set_append_len {α : Type} (l : List α) (b x : α) (r : List α) :
    (l ++ b :: r).set l.length x = l ++ x :: r := by
  induction l with
  | nil => rfl
  | cons a t ih => simpa using ih

theorem lsbVal_cons_true (t : List Bool) : lsbVal (true :: t) = 1 + 2 * lsbVal t := by
  simp [lsbVal]

theorem lsbVal_cons_false (t : List Bool) : lsbVal (false :: t) = 2 * lsbVal t := by
  simp [lsbVal]

theorem next_binary_perm_aux_eq_lsbInc :
    ∀ (q suf : List Bool),
      next_binary_perm_aux q.length (q.reverse ++ suf) suf.length =
        ((lsbInc q).1.reverse ++ suf, (lsbInc q).2) := by
  intro q
  induction q with
  | nil =>
      intro suf
      simp [next_binary_perm_aux, lsbInc]
  | cons b t ih =>
      intro suf
      have hre : (b :: t).reverse ++ suf = t.reverse ++ b :: suf := by
        simp
      rw [hre]
      have hlen : (t.reverse ++ b :: suf).length = t.length + 1 + suf.length := by
        simp
        omega
      show next_binary_perm_aux (t.length + 1) (t.reverse ++ b :: suf) suf.length = _
      have he : (t.reverse ++ b :: suf).length - 1 - suf.length = t.length := by
        omega
      have hgd : (t.reverse ++ b :: suf).getD t.length false = b := by
        have := getD_append_len t.reverse b suf false
        rwa [List.length_reverse] at this
      have hst : ∀ x, (t.reverse ++ b :: suf).set t.length x = t.reverse ++ x :: suf := by
        intro x
        have := set_append_len t.reverse b x suf
        rwa [List.length_reverse] at this
      simp only [next_binary_perm_aux, he, hgd, hst]
      cases b with
      | false =>
          simp only [Bool.not_false, if_pos]
          simp [lsbInc]
      | true =>
          simp only [Bool.not_true, Bool.false_eq_true, if_false]
          have hih := ih (false :: suf)
          simp only [List.length_cons] at hih
          rw [hih]
          simp [lsbInc]

theorem next_binary_perm_eq_lsbInc (q suf : List Bool) :
    next_binary_perm (q.reverse ++ suf) suf.length =
      ((lsbInc q).1.reverse ++ suf, (lsbInc q).2) := by
  have hl : (q.reverse ++ suf).length - suf.length = q.length := by
    simp
  rw [next_binary_perm, hl]
  exact next_binary_perm_aux_eq_lsbInc q suf

theorem lsbVal_lt (q : List Bool) : lsbVal q < 2 ^ q.length := by
  induction q with
  | nil => simp [lsbVal]
  | cons b t ih =>
      cases b
      · rw [lsbVal_cons_false, List.length_cons, pow_succ]
        omega
      · rw [lsbVal_cons_true, List.length_cons, pow_succ]
        omega

theorem lsbInc_spec (q : List Bool) :
    (lsbInc q).1.length = q.length ∧
    lsbVal (lsbInc q).1 = (lsbVal q + 1) % 2 ^ q.length ∧
    ((lsbInc q).2 = true ↔ lsbVal q + 1 < 2 ^ q.length) := by
  induction q with
  | nil =>
      refine ⟨rfl, ?_, ?_⟩
      · simp [lsbInc, lsbVal]
      · simp [lsbInc]
  | cons b t ih =>
      obtain ⟨ih1, ih2, ih3⟩ := ih
      have hbt : lsbVal t < 2 ^ t.length := lsbVal_lt t
      cases b with
      | false =>
          refine ⟨by simp [lsbInc], ?_, ?_⟩
          · show lsbVal (true :: t) = (lsbVal (false :: t) + 1) % 2 ^ (t.length + 1)
            rw [lsbVal_cons_true, lsbVal_cons_false, pow_succ,
              Nat.mod_eq_of_lt (by omega)]
            omega
          · show (true = true) ↔ lsbVal (false :: t) + 1 < 2 ^ (t.length + 1)
            rw [lsbVal_cons_false, pow_succ]
            constructor
            · intro _; omega
            · intro _; rfl
      | true =>
          refine ⟨by simp [lsbInc, ih1], ?_, ?_⟩
          · show lsbVal (false :: (lsbInc t).1) =
              (lsbVal (true :: t) + 1) % 2 ^ (t.length + 1)
            rw [lsbVal_cons_false, lsbVal_cons_true, ih2, pow_succ]
            have h1 : 1 + 2 * lsbVal t + 1 = 2 * (lsbVal t + 1) := by omega
            rw [h1, Nat.mul_comm (2 ^ t.length) 2, Nat.mul_mod_mul_left]
          · show ((lsbInc t).2 = true) ↔ lsbVal (true :: t) + 1 < 2 ^ (t.length + 1)
            rw [ih3, lsbVal_cons_true, pow_succ]
            constructor <;> intro h <;> omega

theorem lsbVal_inj : ∀ (a b : List Bool), a.length = b.length →
    lsbVal a = lsbVal b → a = b := by
  intro a
  induction a with
  | nil =>
      intro b hl _
      cases b with
      | nil => rfl
      | cons y t => simp at hl
  | cons x t ih =>
      intro b hl hv
      cases b with
      | nil => simp at hl
      | cons y s =>
          simp only [lsbVal] at hv
          have hxy : x = y := by
            cases x <;> cases y <;> simp at hv ⊢ <;> omega
          subst hxy
          have hts : t = s := by
            apply ih s (by simpa using hl)
            cases x <;> simp at hv <;> omega
          rw [hts]

theorem lsbVal_replicate_false (k : Nat) : lsbVal (List.replicate k false) = 0 := by
  induction k with
  | zero => rfl
  | succ j ih => simp [List.replicate, lsbVal, ih]

theorem patVal_lt (perm : List Bool) (m : Nat) (h : perm.length = m) :
    patVal perm < 2 ^ m := by
  have := lsbVal_lt perm.reverse
  rwa [List.length_reverse, h] at this

theorem next_binary_perm_top (perm : List Bool) :
    next_binary_perm perm 0 =
      ((lsbInc perm.reverse).1.reverse, (lsbInc perm.reverse).2) := by
  have := next_binary_perm_eq_lsbInc perm.reverse []
  simpa using this

theorem kkt_perms_spec : ∀ (fuel : Nat) (perm : List Bool) (m : Nat),
    perm.length = m → 2 ^ m - patVal perm ≤ fuel →
    (kkt_perms fuel perm).map patVal =
      List.range' (patVal perm) (2 ^ m - patVal perm) ∧
    ∀ q ∈ kkt_perms fuel perm, q.length = m := by
  intro fuel
  induction fuel with
  | zero =>
      intro perm m hl hf
      have := patVal_lt perm m hl
      omega
  | succ f ih =>
      intro perm m hl hf
      have hbound := patVal_lt perm m hl
      obtain ⟨hi1, hi2, hi3⟩ := lsbInc_spec perm.reverse
      rw [List.length_reverse, hl] at hi1 hi2 hi3
      have htop := next_binary_perm_top perm
      have hc2 : (next_binary_perm perm 0).2 = (lsbInc perm.reverse).2 := by
        rw [htop]
      have hc1 : (next_binary_perm perm 0).1 = (lsbInc perm.reverse).1.reverse := by
        rw [htop]
      simp only [kkt_perms, hc2, hc1]
      by_cases hc : (lsbInc perm.reverse).2 = true
      · have hlt : lsbVal perm.reverse + 1 < 2 ^ m := hi3.mp hc
        have hltp : patVal perm + 1 < 2 ^ m := hlt
        have hv' : patVal (lsbInc perm.reverse).1.reverse = patVal perm + 1 := by
          show lsbVal (lsbInc perm.reverse).1.reverse.reverse = patVal perm + 1
          rw [List.reverse_reverse, hi2, Nat.mod_eq_of_lt hlt]
          rfl
        have hl' : (lsbInc perm.reverse).1.reverse.length = m := by
          rw [List.length_reverse, hi1]
        obtain ⟨ihm, ihl⟩ := ih (lsbInc perm.reverse).1.reverse m hl' (by omega)
        rw [if_pos hc]
        constructor
        · simp only [List.map_cons, ihm, hv']
          have hr : 2 ^ m - patVal perm = (2 ^ m - (patVal perm + 1)) + 1 := by
            omega
          rw [hr, List.range'_succ]
        · intro q hq
          rcases List.mem_cons.mp hq with h | h
          · rw [h, hl]
          · exact ihl q h
      · have hge : ¬ (lsbVal perm.reverse + 1 < 2 ^ m) := fun h => hc (hi3.mpr h)
        have hgep : ¬ (patVal perm + 1 < 2 ^ m) := hge
        rw [if_neg hc]
        constructor
        · simp only [List.map_cons, List.map_nil]
          have h1 : 2 ^ m - patVal perm = 1 := by omega
          rw [h1, List.range'_one]
        · intro q hq
          rcases List.mem_cons.mp hq with h | h
          · rw [h, hl]
          · simp at h

/-- C3 counterexample: `solve_kkt` concatenates the per-pattern solver
results (`mergevecteur`) and never deduplicates: with one inequality and an
external solver returning the same feasible point for both
complementary-slackness patterns, the returned candidate list holds that
point twice, so the claim's "merged with duplicates removed" fails. -/
theorem solve_kkt_no_dedup_cex :
    solve_kkt (E := Unit) (V := Nat) 1 0 [] [()] () (fun e _ => e)
        (fun _ _ => [[5]]) (fun _ _ => false) = [[5], [5]] ∧
    ¬ (solve_kkt (E := Unit) (V := Nat) 1 0 [] [()] () (fun e _ => e)
        (fun _ _ => [[5]]) (fun _ _ => false)).Nodup := by
  constructor
  · rfl
  · decide

/-- C3 (amended): for an objective with `m` inequality constraints,
`solve_kkt` enumerates exactly the `2^m` complementary-slackness patterns
(each subset of multipliers forced to zero occurs exactly once), solves the
corresponding reduced stationarity system for each pattern, truncates each
solution to the original variables, and rejects every solution at which some
inequality's left side evaluates strictly positive; the surviving solutions
of all patterns are returned concatenated in enumeration order — duplicates
are NOT removed at this stage. -/
theorem solve_kkt_spec {E V : Type} (n l m : Nat) (eqv g : List E) (e0 : E)
    (substZero : E → Nat → E) (solve2 : List E → List Nat → List (List V))
    (ispos : Nat → List V → Bool) (hm : g.length = m) :
    ((kkt_perms (2 ^ m) (List.replicate m false)).length = 2 ^ m ∧
      (kkt_perms (2 ^ m) (List.replicate m false)).Nodup ∧
      (∀ pat : List Bool, pat.length = m →
        pat ∈ kkt_perms (2 ^ m) (List.replicate m false)) ∧
      (∀ pat ∈ kkt_perms (2 ^ m) (List.replicate m false), pat.length = m)) ∧
    (∀ sol, sol ∈ solve_kkt n l eqv g e0 substZero solve2 ispos ↔
      ((∃ pat ∈ kkt_perms (2 ^ m) (List.replicate m false),
        ∃ s ∈ solve2
          (kkt_reduce n g e0 substZero pat m eqv (List.range (n + m + l))).1
          (kkt_reduce n g e0 substZero pat m eqv (List.range (n + m + l))).2,
          sol = s.take n) ∧
        ∀ j, j < m → ispos j sol = false)) := by
  have hv0 : patVal (List.replicate m false) = 0 := by
    rw [patVal, List.reverse_replicate, lsbVal_replicate_false]
  have hl0 : (List.replicate m false).length = m := by simp
  obtain ⟨hmap, hlen⟩ := kkt_perms_spec (2 ^ m) (List.replicate m false) m hl0
    (Nat.sub_le _ _)
  rw [hv0, Nat.sub_zero] at hmap
  have hcard : (kkt_perms (2 ^ m) (List.replicate m false)).length = 2 ^ m := by
    have := congrArg List.length hmap
    simpa using this
  have hnd : (kkt_perms (2 ^ m) (List.replicate m false)).Nodup := by
    have hrn : (List.range' 0 (2 ^ m)).Nodup := List.nodup_range' 0 (2 ^ m)
    rw [← hmap] at hrn
    exact hrn.of_map patVal
  have hcomplete : ∀ pat : List Bool, pat.length = m →
      pat ∈ kkt_perms (2 ^ m) (List.replicate m false) := by
    intro pat hp
    have hvlt : patVal pat < 2 ^ m := patVal_lt pat m hp
    have hmem : patVal pat ∈ (kkt_perms (2 ^ m) (List.replicate m false)).map patVal := by
      rw [hmap]
      rw [List.mem_range'_1]
      omega
    obtain ⟨q, hq, hqv⟩ := List.mem_map.mp hmem
    have hql : q.length = m := hlen q hq
    have : q = pat := by
      have := lsbVal_inj q.reverse pat.reverse
        (by rw [List.length_reverse, List.length_reverse, hql, hp]) hqv
      have hrev := congrArg List.reverse this
      simpa using hrev
    rwa [this] at hq
  refine ⟨⟨hcard, hnd, hcomplete, hlen⟩, ?_⟩
  intro sol
  rw [solve_kkt]
  simp only [hm, List.mem_filter, List.mem_map, List.mem_flatten]
  constructor
  · rintro ⟨⟨s, hs, rfl⟩, hfeas⟩
    obtain ⟨blk, hblk, hsblk⟩ := hs
    obtain ⟨pat, hpat, rfl⟩ := hblk
    refine ⟨⟨pat, hpat, s, hsblk, rfl⟩, ?_⟩
    intro j hj
    rw [Bool.not_eq_true'] at hfeas
    simpa using List.any_eq_false.mp hfeas j (List.mem_range.mpr hj)
  · rintro ⟨⟨pat, hpat, s, hsol, rfl⟩, hfeas⟩
    refine ⟨⟨s, ⟨_, ⟨pat, hpat, rfl⟩, hsol⟩, rfl⟩, ?_⟩
    rw [Bool.not_eq_true', List.any_eq_false]
    intro j hj
    simp [hfeas j (List.mem_range.mp hj)]

/-- Witness for `solve_kkt_spec`: the hypothesis `g.length = m` is discharged
at the concrete one-inequality instance. -/
theorem solve_kkt_spec_witness :
    ([()] : List Unit).length = 1 ∧
    ((kkt_perms (2 ^ 1) (List.replicate 1 false)).length = 2 ^ 1 ∧
      (kkt_perms (2 ^ 1) (List.replicate 1 false)).Nodup ∧
      (∀ pat : List Bool, pat.length = 1 →
        pat ∈ kkt_perms (2 ^ 1) (List.replicate 1 false)) ∧
      (∀ pat ∈ kkt_perms (2 ^ 1) (List.replicate 1 false), pat.length = 1)) :=
  ⟨by decide,
    (solve_kkt_spec (E := Unit) (V := Nat) 1 0 1 [] [()] () (fun e _ => e)
      (fun _ _ => [[5]]) (fun _ _ => false) (by decide)).1⟩

/-! ## Theorems: global extrema accumulation (claim C5) -/

theorem ge_step_locs {P V : Type} [DecidableEq P] (eqz gt : V → V → Bool)
    (s : GEState P V) (pt : P) (val : V) :
    (ge_step eqz gt s (pt, val)).locs =
      if s.minSet && eqz val s.mn then
        (if pt ∈ s.locs then s.locs else s.locs ++ [pt])
      else if !s.minSet || gt s.mn val then [pt] else s.locs := by
  simp only [ge_step]
  split <;> split <;> simp_all <;> split <;> simp_all

theorem ge_step_mn {P V : Type} [DecidableEq P] (eqz gt : V → V → Bool)
    (s : GEState P V) (pt : P) (val : V) :
    (ge_step eqz gt s (pt, val)).mn =
      if s.minSet && eqz val s.mn then s.mn
      else if !s.minSet || gt s.mn val then val else s.mn := by
  simp only [ge_step]
  split <;> split <;> simp_all <;> split <;> simp_all

theorem ge_step_minSet {P V : Type} [DecidableEq P] (eqz gt : V → V → Bool)
    (s : GEState P V) (pt : P) (val : V) (h : s.minSet = true) :
    (ge_step eqz gt s (pt, val)).minSet = true := by
  simp only [ge_step]
  split <;> split <;> simp_all <;> split <;> simp_all

theorem ge_step_locs_ne {P V : Type} [DecidableEq P] (eqz gt : V → V → Bool)
    (s : GEState P V) (pv : P × V) (h : s.locs ≠ []) :
    (ge_step eqz gt s pv).locs ≠ [] := by
  obtain ⟨pt, val⟩ := pv
  rw [ge_step_locs]
  split
  · split
    · exact h
    · simp
  · split
    · simp
    · exact h

theorem ge_step_inv {P V : Type} [DecidableEq P] (eqz gt : V → V → Bool)
    (hrefl : ∀ v, eqz v v = true) (cands : List (P × V)) (s : GEState P V)
    (pt : P) (val : V) (hmem : (pt, val) ∈ cands)
    (hinv : ∀ p ∈ s.locs, ∃ v, (p, v) ∈ cands ∧ eqz v s.mn = true)
    (hnd : s.locs.Nodup) :
    (∀ p ∈ (ge_step eqz gt s (pt, val)).locs,
      ∃ v, (p, v) ∈ cands ∧ eqz v (ge_step eqz gt s (pt, val)).mn = true) ∧
    (ge_step eqz gt s (pt, val)).locs.Nodup := by
  have hmn := ge_step_mn eqz gt s pt val
  have hlocs := ge_step_locs eqz gt s pt val
  by_cases h1 : (s.minSet && eqz val s.mn) = true
  · rw [if_pos h1] at hmn hlocs
    rw [hmn, hlocs]
    by_cases h2 : pt ∈ s.locs
    · rw [if_pos h2]
      exact ⟨hinv, hnd⟩
    · rw [if_neg h2]
      constructor
      · intro p hp
        rcases List.mem_append.mp hp with hp | hp
        · exact hinv p hp
        · rw [List.mem_singleton] at hp
          subst hp
          exact ⟨val, hmem, ((Bool.and_eq_true _ _).mp h1).2⟩
      · refine List.Nodup.append hnd (List.nodup_singleton _) ?_
        intro y hy hy'
        rw [List.mem_singleton] at hy'
        rw [hy'] at hy
        exact h2 hy
  · rw [if_neg h1] at hmn hlocs
    by_cases h2 : (!s.minSet || gt s.mn val) = true
    · rw [if_pos h2] at hmn hlocs
      rw [hmn, hlocs]
      refine ⟨?_, List.nodup_singleton _⟩
      intro p hp
      rw [List.mem_singleton] at hp
      subst hp
      exact ⟨val, hmem, hrefl val⟩
    · rw [if_neg h2] at hmn hlocs
      rw [hmn, hlocs]
      exact ⟨hinv, hnd⟩

theorem ge_foldl_inv {P V : Type} [DecidableEq P] (eqz gt : V → V → Bool)
    (hrefl : ∀ v, eqz v v = true) (cands : List (P × V)) :
    ∀ (l : List (P × V)) (s : GEState P V),
      (∀ pv ∈ l, pv ∈ cands) →
      (∀ p ∈ s.locs, ∃ v, (p, v) ∈ cands ∧ eqz v s.mn = true) →
      s.locs.Nodup →
      (∀ p ∈ (l.foldl (ge_step eqz gt) s).locs,
        ∃ v, (p, v) ∈ cands ∧ eqz v (l.foldl (ge_step eqz gt) s).mn = true) ∧
      (l.foldl (ge_step eqz gt) s).locs.Nodup := by
  intro l
  induction l with
  | nil => intro s _ hinv hnd; exact ⟨hinv, hnd⟩
  | cons pv rest ih =>
      intro s hl hinv hnd
      obtain ⟨pt, val⟩ := pv
      obtain ⟨h1, h2⟩ := ge_step_inv eqz gt hrefl cands s pt val
        (hl (pt, val) (by simp)) hinv hnd
      exact ih (ge_step eqz gt s (pt, val)) (fun x hx => hl x (by simp [hx])) h1 h2

/-- C5: `global_extrema` merges tied minimizers by exact symbolic equality
after rational normalization: at a state with the running minimum set, a
candidate extends the minimizer list exactly when its value minus the
running minimum normalizes to zero and it is not already recorded; every
returned minimizer's value ties (under the exact normalization test) with
the returned minimum; the minimizer list never holds duplicates; and an
empty candidate set makes `global_extrema` return the empty list, which
`_minimize` reports as the undefined sentinel (an ordinary value, not a
raised error). -/
theorem global_extrema_spec {P V : Type} [DecidableEq P] (eqz gt : V → V → Bool)
    (v0 : V) (cands : List (P × V)) (s : GEState P V) (pt : P) (val : V)
    (location : Bool) (hrefl : ∀ v, eqz v v = true) :
    (s.minSet = true → s.locs ≠ [] →
      ((ge_step eqz gt s (pt, val)).locs = s.locs ++ [pt] ↔
        (eqz val s.mn = true ∧ pt ∉ s.locs))) ∧
    (∀ p ∈ (ge_run eqz gt v0 cands).locs,
      ∃ v, (p, v) ∈ cands ∧ eqz v (ge_run eqz gt v0 cands).mn = true) ∧
    (ge_run eqz gt v0 cands).locs.Nodup ∧
    global_extrema eqz gt v0 ([] : List (P × V)) = [] ∧
    _minimize eqz gt v0 location ([] : List (P × V)) = .undefR := by
  refine ⟨?_, ?_, ?_, rfl, rfl⟩
  · intro hset hne
    rw [ge_step_locs]
    by_cases h1 : (s.minSet && eqz val s.mn) = true
    · rw [if_pos h1]
      by_cases h2 : pt ∈ s.locs
      · rw [if_pos h2]
        constructor
        · intro hcontra
          exfalso
          have := congrArg List.length hcontra
          simp at this
        · rintro ⟨_, hnin⟩
          exact absurd h2 hnin
      · rw [if_neg h2]
        exact ⟨fun _ => ⟨((Bool.and_eq_true _ _).mp h1).2, h2⟩, fun _ => rfl⟩
    · rw [if_neg h1]
      have heqz : eqz val s.mn = false := by
        cases h : eqz val s.mn
        · rfl
        · exact absurd (by rw [hset, h]; rfl) h1
      constructor
      · intro hcontra
        exfalso
        split at hcontra
        · have hlen : (1 : Nat) = s.locs.length + 1 := by
            simpa using congrArg List.length hcontra
          have hz : s.locs.length = 0 := by omega
          exact hne (List.eq_nil_of_length_eq_zero hz)
        · have hlen := congrArg List.length hcontra
          simp at hlen
      · rintro ⟨habs, _⟩
        rw [habs] at heqz
        exact absurd heqz (by simp)
  · intro p hp
    exact (ge_foldl_inv eqz gt hrefl cands cands ⟨false, false, v0, v0, []⟩
      (fun _ hx => hx) (by intro q hq; simp at hq) (by simp)).1 p hp
  · exact (ge_foldl_inv eqz gt hrefl cands cands ⟨false, false, v0, v0, []⟩
      (fun _ hx => hx) (by intro q hq; simp at hq) (by simp)).2

/-- Witness for `global_extrema_spec`: the reflexivity hypothesis on the
exact-equality oracle is discharged at the rational instance `eqzQ`. -/
theorem global_extrema_spec_witness :
    (∀ v : Rat, eqzQ v v = true) ∧
    _minimize eqzQ gtQ 0 true ([] : List (Nat × Rat)) = .undefR := by
  have h : ∀ v : Rat, eqzQ v v = true := by
    intro v
    simp [eqzQ]
  exact ⟨h, (global_extrema_spec eqzQ gtQ 0 ([] : List (Nat × Rat))
    ⟨false, false, 0, 0, []⟩ 0 0 true h).2.2.2.2⟩

/-! ## Theorems: maximize delegates to minimize (claim C10) -/

theorem eqzQ_iff (a b : Rat) : eqzQ a b = true ↔ a = b := by
  simp [eqzQ, sub_eq_zero]

theorem ge_step_mn_q {P : Type} [DecidableEq P] (s : GEState P Rat) (pt : P)
    (val : Rat) (h : s.minSet = true) :
    (ge_step eqzQ gtQ s (pt, val)).mn = min s.mn val := by
  rw [ge_step_mn, h]
  by_cases h1 : eqzQ val s.mn = true
  · have hv : val = s.mn := (eqzQ_iff val s.mn).mp h1
    rw [h1]
    simp [hv]
  · have h1f : eqzQ val s.mn = false := by
      cases hE : eqzQ val s.mn
      · rfl
      · exact absurd hE h1
    have hv : val ≠ s.mn := fun hc => h1 ((eqzQ_iff val s.mn).mpr hc)
    simp only [h1f, Bool.and_false, Bool.false_eq_true, if_false, Bool.not_true,
      Bool.false_or]
    by_cases h2 : val < s.mn
    · rw [if_pos (by simp only [gtQ, decide_eq_true_eq]; exact h2),
        min_eq_right (le_of_lt h2)]
    · rw [if_neg (by simp only [gtQ, decide_eq_true_eq]; exact h2),
        min_eq_left (not_lt.mp h2)]

theorem ge_foldl_mn_q {P : Type} [DecidableEq P] :
    ∀ (l : List (P × Rat)) (s : GEState P Rat), s.minSet = true →
      (l.foldl (ge_step eqzQ gtQ) s).mn = l.foldl (fun a pv => min a pv.2) s.mn := by
  intro l
  induction l with
  | nil => intro s _; rfl
  | cons pv rest ih =>
      intro s h
      obtain ⟨pt, val⟩ := pv
      simp only [List.foldl_cons]
      rw [ih _ (ge_step_minSet eqzQ gtQ s pt val h), ge_step_mn_q s pt val h]

theorem ge_foldl_minSet {P V : Type} [DecidableEq P] (eqz gt : V → V → Bool) :
    ∀ (l : List (P × V)) (s : GEState P V), s.minSet = true →
      (l.foldl (ge_step eqz gt) s).minSet = true := by
  intro l
  induction l with
  | nil => intro s h; exact h
  | cons pv rest ih =>
      intro s h
      obtain ⟨pt, val⟩ := pv
      exact ih _ (ge_step_minSet eqz gt s pt val h)

theorem ge_foldl_locs_ne {P V : Type} [DecidableEq P] (eqz gt : V → V → Bool) :
    ∀ (l : List (P × V)) (s : GEState P V), s.locs ≠ [] →
      (l.foldl (ge_step eqz gt) s).locs ≠ [] := by
  intro l
  induction l with
  | nil => intro s h; exact h
  | cons pv rest ih =>
      intro s h
      exact ih _ (ge_step_locs_ne eqz gt s pv h)

theorem ge_run_first_q {P : Type} [DecidableEq P] (c : P × Rat) (v0 : Rat) :
    ge_step eqzQ gtQ (⟨false, false, v0, v0, []⟩ : GEState P Rat) c =
      ⟨true, true, c.2, c.2, [c.1]⟩ := by
  obtain ⟨p, v⟩ := c
  rfl

theorem ge_run_mn_q {P : Type} [DecidableEq P] (c : P × Rat) (rest : List (P × Rat))
    (v0 : Rat) :
    (ge_run eqzQ gtQ v0 (c :: rest)).mn =
      rest.foldl (fun a pv => min a pv.2) c.2 ∧
    (ge_run eqzQ gtQ v0 (c :: rest)).minSet = true ∧
    (ge_run eqzQ gtQ v0 (c :: rest)).locs ≠ [] := by
  rw [ge_run, List.foldl_cons, ge_run_first_q c v0]
  refine ⟨?_, ?_, ?_⟩
  · exact ge_foldl_mn_q rest ⟨true, true, c.2, c.2, [c.1]⟩ rfl
  · exact ge_foldl_minSet eqzQ gtQ rest ⟨true, true, c.2, c.2, [c.1]⟩ rfl
  · exact ge_foldl_locs_ne eqzQ gtQ rest ⟨true, true, c.2, c.2, [c.1]⟩ (by simp)

theorem ge_fold_min_neg {P : Type} :
    ∀ (l : List (P × Rat)) (a : Rat),
      (l.map (fun pv => (pv.1, -pv.2))).foldl (fun b pv => min b pv.2) (-a) =
        -(l.foldl (fun b pv => max b pv.2) a) := by
  intro l
  induction l with
  | nil => intro a; simp
  | cons pv rest ih =>
      intro a
      simp only [List.map_cons, List.foldl_cons]
      rw [← ih (max a pv.2), min_neg_neg]

/-- C10: `maximize` computes its result by negating the objective (hence
every candidate value seen by the delegated run), calling `minimize`, and
negating only the returned extreme value: when a location sequence is
returned only the first element is negated and the locations are passed
through unchanged; so the reported maximal value of `f` equals the negation
of the minimal value of `-f` — the genuine maximum of the candidate values —
and the reported maximizer locations are exactly the minimizer locations of
`-f`, each of which carries the maximal `f`-value among the candidates; an
undefined (empty-candidate) minimization stays undefined. -/
theorem maximize_spec {P : Type} [DecidableEq P] (c : P × Rat)
    (rest : List (P × Rat)) :
    ∃ locs,
      _minimize eqzQ gtQ 0 true ((c :: rest).map (fun pv => (pv.1, -pv.2))) =
        .valloc (-(rest.foldl (fun a pv => max a pv.2) c.2)) locs ∧
      _maximize true (c :: rest) =
        .valloc (rest.foldl (fun a pv => max a pv.2) c.2) locs ∧
      (∀ p ∈ locs, (p, rest.foldl (fun a pv => max a pv.2) c.2) ∈ c :: rest) ∧
      _maximize false (c :: rest) =
        .val (rest.foldl (fun a pv => max a pv.2) c.2) ∧
      _maximize (P := P) true [] = .undefR := by
  have hmapc : (c :: rest).map (fun pv => (pv.1, -pv.2)) =
      (c.1, -c.2) :: rest.map (fun pv => (pv.1, -pv.2)) := by
    simp
  obtain ⟨hmn, hset, hlocne⟩ :=
    ge_run_mn_q (c.1, -c.2) (rest.map (fun pv => (pv.1, -pv.2))) 0
  have hmnv : (ge_run eqzQ gtQ 0 ((c :: rest).map (fun pv => (pv.1, -pv.2)))).mn =
      -(rest.foldl (fun a pv => max a pv.2) c.2) := by
    rw [hmapc, hmn]
    exact ge_fold_min_neg rest c.2
  have hlocne' : (ge_run eqzQ gtQ 0 ((c :: rest).map (fun pv => (pv.1, -pv.2)))).locs ≠ [] := by
    rw [hmapc]
    exact hlocne
  have hglob : global_extrema eqzQ gtQ 0 ((c :: rest).map (fun pv => (pv.1, -pv.2))) =
      (ge_run eqzQ gtQ 0 ((c :: rest).map (fun pv => (pv.1, -pv.2)))).locs := by
    rw [global_extrema, if_neg (by simp)]
  have hlocE : (ge_run eqzQ gtQ 0 ((c :: rest).map (fun pv => (pv.1, -pv.2)))).locs.isEmpty =
      false := by
    cases hL : (ge_run eqzQ gtQ 0 ((c :: rest).map (fun pv => (pv.1, -pv.2)))).locs
    · exact absurd hL hlocne'
    · rfl
  have hminuT : _minimize eqzQ gtQ 0 true ((c :: rest).map (fun pv => (pv.1, -pv.2))) =
      MinOut.valloc (-(rest.foldl (fun a pv => max a pv.2) c.2))
        (ge_run eqzQ gtQ 0 ((c :: rest).map (fun pv => (pv.1, -pv.2)))).locs := by
    rw [_minimize]
    simp only [hglob, hlocE, Bool.false_eq_true, if_false, hmnv,
      eq_self_iff_true, if_true]
  have hminuF : _minimize eqzQ gtQ 0 false ((c :: rest).map (fun pv => (pv.1, -pv.2))) =
      MinOut.val (-(rest.foldl (fun a pv => max a pv.2) c.2)) := by
    rw [_minimize]
    simp only [hglob, hlocE, Bool.false_eq_true, if_false, hmnv]
  refine ⟨(ge_run eqzQ gtQ 0 ((c :: rest).map (fun pv => (pv.1, -pv.2)))).locs,
    ?_, ?_, ?_, ?_, ?_⟩
  · exact hminuT
  · rw [_maximize, hminuT]
    simp only [neg_neg]
  · intro p hp
    have hrefl : ∀ v : Rat, eqzQ v v = true := fun v => (eqzQ_iff v v).mpr rfl
    have hinv := (global_extrema_spec eqzQ gtQ 0
      ((c :: rest).map (fun pv => (pv.1, -pv.2)))
      ⟨false, false, 0, 0, []⟩ c.1 0 true hrefl).2.1
    obtain ⟨v, hvmem, hvz⟩ := hinv p hp
    have hveq : v = -(rest.foldl (fun a pv => max a pv.2) c.2) := by
      have := (eqzQ_iff v _).mp hvz
      rwa [hmnv] at this
    obtain ⟨pv0, hpv0, hpe⟩ := List.mem_map.mp hvmem
    have hp1 : pv0.1 = p := congrArg Prod.fst hpe
    have hp2 : -pv0.2 = v := congrArg Prod.snd hpe
    have hval : pv0.2 = rest.foldl (fun a pv => max a pv.2) c.2 := by
      have : -pv0.2 = -(rest.foldl (fun a pv => max a pv.2) c.2) := by
        rw [hp2, hveq]
      exact neg_injective this
    have : pv0 = (p, rest.foldl (fun a pv => max a pv.2) c.2) := by
      rw [Prod.ext_iff]
      exact ⟨hp1, hval⟩
    rwa [this] at hpv0
  · rw [_maximize, hminuF]
    simp only [neg_neg]
  · rfl

/-! ## Theorems: variable arrangements (claim C6) -/

theorem eraseIdx_append_len {α : Type} :
    ∀ (l : List α) (x : α) (r : List α), (l ++ x :: r).eraseIdx l.length = l ++ r := by
  intro l
  induction l with
  | nil => intro x r; rfl
  | cons a t ih =>
      intro x r
      simp only [List.cons_append, List.eraseIdx, List.length_cons]
      exact congrArg (fun l => a :: l) (ih x r)

theorem length_filter_not_add {α : Type} (p : α → Bool) (l : List α) :
    (l.filter p).length + (l.filter (fun a => !p a)).length = l.length := by
  induction l with
  | nil => rfl
  | cons a t ih =>
      by_cases h : p a
      · simp only [List.filter_cons, h, if_pos, Bool.not_true, Bool.false_eq_true,
          if_false, List.length_cons]
        omega
      · have hna : p a = false := by
          cases hE : p a
          · rfl
          · exact absurd hE h
        simp only [List.filter_cons, hna, Bool.not_false, Bool.false_eq_true,
          if_false, if_true, List.length_cons]
        omega

theorem arrLoop_spec (k : Nat) :
    ∀ (i : Nat) (rest : List Nat),
      arrLoop k i (List.range i ++ rest) =
        ((List.range i).filter (fun j => !Nat.testBit k j)) ++ rest ++
          ((List.range i).filter (fun j => Nat.testBit k j)).reverse := by
  intro i
  induction i with
  | zero => intro rest; simp [arrLoop]
  | succ j ih =>
      intro rest
      rw [List.range_succ, List.append_assoc]
      simp only [arrLoop]
      by_cases hb : Nat.testBit k j
      · rw [if_pos hb]
        have he : ((List.range j ++ (j :: rest)).eraseIdx j) = List.range j ++ rest := by
          have := eraseIdx_append_len (List.range j) j rest
          rwa [List.length_range] at this
        have hc : (List.range j ++ rest).concat j = List.range j ++ (rest ++ [j]) := by
          simp [List.concat_eq_append, List.append_assoc]
        rw [List.singleton_append, he, hc, ih (rest ++ [j])]
        simp [List.filter_append, List.filter_singleton, hb, List.append_assoc]
      · rw [if_neg hb]
        have hnb : Nat.testBit k j = false := by
          cases hE : Nat.testBit k j
          · rfl
          · exact absurd hE hb
        rw [List.singleton_append, ih (j :: rest)]
        simp [List.filter_append, List.filter_singleton, hnb, List.append_assoc]

theorem arrOf_eq (n k : Nat) : arrOf n k = freeL n k ++ (selL n k).reverse := by
  rw [arrOf, ← List.append_nil (List.range n), arrLoop_spec k n []]
  rw [freeL, selL]
  simp

theorem bitcount32_eq (k n : Nat) (hk : k < 2 ^ n) (hn : n ≤ 32) :
    bitcount32 k = (selL n k).length := by
  rw [bitcount32, selL]
  have h32 : List.range 32 = List.range n ++ List.range' n (32 - n) := by
    rw [List.range_eq_range', List.range_eq_range']
    have happ := List.range'_append 0 n (32 - n) 1
    simp only [Nat.one_mul, Nat.zero_add] at happ
    rw [happ]
    congr 1
    omega
  rw [h32, List.filter_append]
  have h2 : (List.range' n (32 - n)).filter (fun i => Nat.testBit k i) = [] := by
    rw [List.filter_eq_nil_iff]
    intro a ha
    rw [List.mem_range'_1] at ha
    have hk2 : k < 2 ^ a := lt_of_lt_of_le hk (Nat.pow_le_pow_right (by omega) ha.1)
    simp [Nat.testBit_lt_two_pow hk2]
  rw [h2, List.append_nil]

theorem selL_length_freeL (n k m : Nat) (h : (selL n k).length = m) :
    (freeL n k).length = n - m := by
  have := length_filter_not_add (fun j => Nat.testBit k j) (List.range n)
  rw [List.length_range] at this
  rw [selL] at h
  rw [freeL]
  omega

theorem selL_eq_iff (n : Nat) {k1 k2 : Nat} (hk1 : k1 < 2 ^ n) (hk2 : k2 < 2 ^ n)
    (h : selL n k1 = selL n k2) : k1 = k2 := by
  apply Nat.eq_of_testBit_eq
  intro i
  by_cases hi : i < n
  · have hmem : ∀ k, Nat.testBit k i = true ↔ i ∈ selL n k := by
      intro k
      rw [selL, List.mem_filter, List.mem_range]
      constructor
      · intro hb; exact ⟨hi, hb⟩
      · intro hb; exact hb.2
    cases hE : Nat.testBit k1 i
    · cases hE2 : Nat.testBit k2 i
      · rfl
      · exfalso
        have := (hmem k2).mp hE2
        rw [← h] at this
        have := (hmem k1).mpr this
        rw [hE] at this
        exact Bool.false_ne_true this
    · have hmem1 := (hmem k1).mp hE
      rw [h] at hmem1
      have hb2 := (hmem k2).mpr hmem1
      rw [hb2]
  · have h1 : k1 < 2 ^ i := lt_of_lt_of_le hk1 (Nat.pow_le_pow_right (by omega) (by omega))
    have h2 : k2 < 2 ^ i := lt_of_lt_of_le hk2 (Nat.pow_le_pow_right (by omega) (by omega))
    rw [Nat.testBit_lt_two_pow h1, Nat.testBit_lt_two_pow h2]

/-- C6: for an `m × n` constraint Jacobian with `1 ≤ m < n ≤ 32`,
`vars_arrangements` returns one arrangement per size-`m` column subset
(identified with its non-zero bitmask `k < 2^n`) whose sub-block passes the
external non-zero-determinant test, and no others; the output has no
duplicate arrangements; and every returned arrangement is a permutation of
the variable indices `0 .. n-1` in which the chosen dependent columns occupy
the last `m` positions (descending) while the remaining indices keep their
original relative order in front. -/
theorem vars_arrangements_spec {α : Type} (m n : Nat) (J : Nat → Nat → α)
    (detO : List (List α) → α) (iszO : α → Bool) (arr : List Nat)
    (hm : 1 ≤ m) (hmn : m < n) (hn : n ≤ 32) :
    (arr ∈ vars_arrangements m n J detO iszO ↔
      ∃ k, 0 < k ∧ k < 2 ^ n ∧ (selL n k).length = m ∧
        iszO (detO (subBlock J m ((selL n k).reverse))) = false ∧
        arr = freeL n k ++ (selL n k).reverse) ∧
    (vars_arrangements m n J detO iszO).Nodup ∧
    (∀ a ∈ vars_arrangements m n J detO iszO,
      a.Perm (List.range n) ∧ ∃ k, k < 2 ^ n ∧ (selL n k).length = m ∧
        a.drop (n - m) = (selL n k).reverse ∧ a.take (n - m) = freeL n k) := by
  have hpow : 1 ≤ 2 ^ n := Nat.one_le_two_pow
  have hmemsets : ∀ k, k ∈ (List.range' 1 (2 ^ n - 1)).filter
      (fun k => bitcount32 k = m) ↔ (0 < k ∧ k < 2 ^ n ∧ (selL n k).length = m) := by
    intro k
    rw [List.mem_filter, List.mem_range'_1]
    constructor
    · rintro ⟨⟨h1, h2⟩, h3⟩
      have hklt : k < 2 ^ n := by omega
      refine ⟨by omega, hklt, ?_⟩
      rw [← bitcount32_eq k n hklt hn]
      exact of_decide_eq_true h3
    · rintro ⟨h1, h2, h3⟩
      refine ⟨⟨by omega, by omega⟩, ?_⟩
      rw [decide_eq_true_eq, bitcount32_eq k n h2 hn]
      exact h3
  have hdrop : ∀ k, k < 2 ^ n → (selL n k).length = m →
      (arrOf n k).drop (n - m) = (selL n k).reverse ∧
      (arrOf n k).take (n - m) = freeL n k := by
    intro k hk hsel
    have hfl : (freeL n k).length = n - m := selL_length_freeL n k m hsel
    rw [arrOf_eq]
    constructor
    · rw [← hfl, List.drop_left]
    · rw [← hfl, List.take_left]
  have hmemmain : ∀ a, a ∈ vars_arrangements m n J detO iszO ↔
      ∃ k, 0 < k ∧ k < 2 ^ n ∧ (selL n k).length = m ∧
        iszO (detO (subBlock J m ((selL n k).reverse))) = false ∧
        a = freeL n k ++ (selL n k).reverse := by
    intro a
    rw [vars_arrangements]
    rw [List.mem_filter]
    constructor
    · rintro ⟨hmap, hdet⟩
      obtain ⟨k, hk, rfl⟩ := List.mem_map.mp hmap
      obtain ⟨hk1, hk2, hk3⟩ := (hmemsets k).mp hk
      rw [(hdrop k hk2 hk3).1] at hdet
      rw [Bool.not_eq_true'] at hdet
      exact ⟨k, hk1, hk2, hk3, hdet, arrOf_eq n k⟩
    · rintro ⟨k, hk1, hk2, hk3, hdet, rfl⟩
      constructor
      · exact List.mem_map.mpr ⟨k, (hmemsets k).mpr ⟨hk1, hk2, hk3⟩, arrOf_eq n k⟩
      · have hdd : (freeL n k ++ (selL n k).reverse).drop (n - m) = (selL n k).reverse := by
          have hh := (hdrop k hk2 hk3).1
          rwa [arrOf_eq] at hh
        rw [hdd, Bool.not_eq_true']
        exact hdet
  refine ⟨hmemmain arr, ?_, ?_⟩
  · rw [vars_arrangements]
    apply List.Nodup.filter
    apply List.Nodup.map_on
    · intro k1 hk1 k2 hk2 heq
      obtain ⟨h11, h12, h13⟩ := (hmemsets k1).mp hk1
      obtain ⟨h21, h22, h23⟩ := (hmemsets k2).mp hk2
      have hd1 := (hdrop k1 h12 h13).1
      have hd2 := (hdrop k2 h22 h23).1
      have : (selL n k1).reverse = (selL n k2).reverse := by
        rw [← hd1, ← hd2, heq]
      have hsel : selL n k1 = selL n k2 := by
        have := congrArg List.reverse this
        simpa using this
      exact selL_eq_iff n h12 h22 hsel
    · exact (List.nodup_range' 1 (2 ^ n - 1)).filter _
  · intro a ha
    obtain ⟨k, hk1, hk2, hk3, _, rfl⟩ := (hmemmain a).mp ha
    constructor
    · have hperm1 : (freeL n k ++ (selL n k).reverse).Perm (freeL n k ++ selL n k) :=
        List.Perm.append_left (freeL n k) (List.reverse_perm (selL n k))
      refine hperm1.trans ?_
      have hperm2 : (freeL n k ++ selL n k).Perm (selL n k ++ freeL n k) :=
        List.perm_append_comm
      refine hperm2.trans ?_
      rw [selL, freeL]
      exact List.filter_append_perm _ (List.range n)
    · exact ⟨k, hk2, hk3, by rw [← arrOf_eq, (hdrop k hk2 hk3).1],
        by rw [← arrOf_eq, (hdrop k hk2 hk3).2]⟩

/-- Witness for `vars_arrangements_spec`: the dimension hypotheses are
discharged at `m = 1`, `n = 2` with an all-ones Jacobian over `Int` and the
exact zero test; the membership equivalence is checked at the arrangement
`[1, 0]`. -/
theorem vars_arrangements_spec_witness :
    ((1 : Nat) ≤ 1 ∧ (1 : Nat) < 2 ∧ (2 : Nat) ≤ 32) ∧
    (([1, 0] : List Nat) ∈ vars_arrangements 1 2 (fun _ _ => (1 : Int))
        (fun _ => 1) (fun x => x == 0) ↔
      ∃ k, 0 < k ∧ k < 2 ^ 2 ∧ (selL 2 k).length = 1 ∧
        (fun x => x == 0) ((fun (_ : List (List Int)) => (1 : Int))
          (subBlock (fun _ _ => (1 : Int)) 1 ((selL 2 k).reverse))) = false ∧
        ([1, 0] : List Nat) = freeL 2 k ++ (selL 2 k).reverse) :=
  ⟨⟨by decide, by decide, by decide⟩,
    (vars_arrangements_spec 1 2 (fun _ _ => (1 : Int)) (fun _ => 1)
      (fun x => x == 0) [1, 0] (by decide) (by decide) (by decide)).1⟩

/-! ## Theorems: dimension guard (claim C9) -/

/-- C9: for every extrema query with classification order ≥ 1 and at least
one constraint, if the number of constraints reaches the number of variables
or the Jacobian's symbolic rank is below the number of constraints, the
query aborts immediately with the dimension-typed error; the outcome is
moreover independent of the solver/classifier oracle, so no candidate is
solved for or classified before the abort. -/
theorem extrema_dim_guard {α A : Type} (order_size m nv rankJ : Nat)
    (J : Nat → Nat → α) (detO : List (List α) → α) (iszO : α → Bool)
    (solveClassify : List Nat → List A)
    (h1 : 1 ≤ order_size) (h2 : 1 ≤ m) (h3 : nv ≤ m ∨ rankJ < m) :
    extrema_run order_size m nv rankJ J detO iszO solveClassify =
      .error .dimErr ∧
    ∀ solveClassify' : List Nat → List A,
      extrema_run order_size m nv rankJ J detO iszO solveClassify' =
        extrema_run order_size m nv rankJ J detO iszO solveClassify := by
  have hcond : 0 < order_size ∧ m ≠ 0 := ⟨h1, by omega⟩
  constructor
  · rw [extrema_run, if_pos hcond, if_pos h3]
  · intro s'
    rw [extrema_run, if_pos hcond, if_pos h3, extrema_run, if_pos hcond, if_pos h3]

/-- Witness for `extrema_dim_guard`: order 1, two constraints in two
variables (constraint count equals variable count). -/
theorem extrema_dim_guard_witness :
    ((1 : Nat) ≤ 1 ∧ (1 : Nat) ≤ 2 ∧ ((2 : Nat) ≤ 2 ∨ (1 : Nat) < 2)) ∧
    extrema_run (α := Unit) (A := Unit) 1 2 2 1 (fun _ _ => ())
      (fun _ => ()) (fun _ => true) (fun _ => []) = .error .dimErr :=
  ⟨⟨by decide, by decide, Or.inl (by decide)⟩,
    (extrema_dim_guard (α := Unit) (A := Unit) 1 2 2 1 (fun _ _ => ())
      (fun _ => ()) (fun _ => true) (fun _ => []) (by decide) (by decide)
      (Or.inl (by decide))).1⟩

/-! ## Theorems: differential-term algebra (claim C7) -/

theorem dropWhile_head_false {α : Type} (p : α → Bool) :
    ∀ (l : List α) (x : α) (r : List α), l.dropWhile p = x :: r → p x = false := by
  intro l
  induction l with
  | nil => intro x r h; simp [List.dropWhile] at h
  | cons a t ih =>
      intro x r h
      rw [List.dropWhile_cons] at h
      by_cases hp : p a = true
      · rw [if_pos hp] at h
        exact ih x r h
      · rw [if_neg hp] at h
        have hx : a = x := (List.cons.injEq a t x r).mp h |>.1
        rw [← hx]
        cases hE : p a
        · rfl
        · exact absurd hE hp

theorem sum_dropWhile_zero : ∀ (l : List Nat),
    (l.dropWhile (fun x => x = 0)).sum = l.sum := by
  intro l
  induction l with
  | nil => rfl
  | cons a t ih =>
      rw [List.dropWhile_cons]
      by_cases ha : a = 0
      · rw [if_pos (by simp [ha]), ih, List.sum_cons, ha, Nat.zero_add]
      · rw [if_neg (by simp [ha])]

theorem sum_trimZeros (sig : List Nat) :
    sum_ivector (trimZeros sig) = sum_ivector sig := by
  rw [trimZeros, sum_ivector_eq_sum, sum_ivector_eq_sum, List.sum_reverse,
    sum_dropWhile_zero, List.sum_reverse]

theorem trimZeros_shape (sig : List Nat) :
    trimZeros sig = [] ∨
      ∃ x d', x ≠ 0 ∧ trimZeros sig = List.reverse d' ++ [x] := by
  rw [trimZeros]
  cases hd : sig.reverse.dropWhile (fun x => x = 0) with
  | nil => left; simp
  | cons x d' =>
      right
      refine ⟨x, d', ?_, by simp⟩
      have := dropWhile_head_false (fun x => decide (x = 0)) sig.reverse x d' hd
      simpa using this

theorem trimZeros_allZero (sig : List Nat) (h : ∀ x ∈ sig, x = 0) :
    trimZeros sig = [] := by
  rw [trimZeros]
  have : sig.reverse.dropWhile (fun x => decide (x = 0)) = [] := by
    rw [List.dropWhile_eq_nil_iff]
    intro x hx
    simp [h x (List.mem_reverse.mp hx)]
  rw [this]
  rfl

theorem decLast_trim_sum (sig : List Nat) (x : Nat) (d' : List Nat) (hx : x ≠ 0)
    (hsh : trimZeros sig = List.reverse d' ++ [x]) :
    sum_ivector (decLast (trimZeros sig)) + 1 = sum_ivector sig := by
  have hlen : (List.reverse d' ++ [x]).length = d'.length + 1 := by simp
  have hgd : (List.reverse d' ++ [x]).getD ((List.reverse d' ++ [x]).length - 1) 0 = x := by
    rw [hlen, Nat.add_sub_cancel]
    have := getD_append_len (List.reverse d') x [] 0
    rwa [List.length_reverse] at this
  have hst : (List.reverse d' ++ [x]).set ((List.reverse d' ++ [x]).length - 1) (x - 1) =
      List.reverse d' ++ [x - 1] := by
    rw [hlen, Nat.add_sub_cancel]
    have := set_append_len (List.reverse d') x (x - 1) []
    rwa [List.length_reverse] at this
  have htz := sum_trimZeros sig
  rw [hsh] at htz
  rw [hsh, decLast, hgd, hst]
  rw [sum_ivector_eq_sum] at htz ⊢
  rw [List.sum_append, List.sum_singleton] at htz ⊢
  omega

theorem derive_diffterms_fuel (nvars nconstr : Nat) :
    ∀ (N : Nat) (terms : DiffTerms) (sig : List Nat), sum_ivector sig ≤ N →
      ∃ r, derive_diffterms nvars nconstr (sum_ivector sig + 1) terms sig = some r := by
  intro N
  induction N with
  | zero =>
      intro terms sig hs
      have htr : trimZeros sig = [] := by
        rcases trimZeros_shape sig with h | ⟨x, d', hx, hsh⟩
        · exact h
        · exfalso
          have htz := sum_trimZeros sig
          rw [hsh] at htz
          rw [sum_ivector_eq_sum, sum_ivector_eq_sum, List.sum_append,
            List.sum_singleton] at htz
          rw [sum_ivector_eq_sum] at hs
          omega
      refine ⟨terms, ?_⟩
      simp only [derive_diffterms, htr]
      rfl
  | succ N ih =>
      intro terms sig hs
      rcases trimZeros_shape sig with htr | ⟨x, d', hx, hsh⟩
      · refine ⟨terms, ?_⟩
        simp only [derive_diffterms, htr]
        rfl
      · have hne : trimZeros sig ≠ [] := by
          rw [hsh]
          simp
        have hdec := decLast_trim_sum sig x d' hx hsh
        simp only [derive_diffterms, if_neg hne]
        have hle : sum_ivector (decLast (trimZeros sig)) ≤ N := by omega
        have hih := ih (derive_step nvars nconstr ((trimZeros sig).length - 1) terms)
          (decLast (trimZeros sig)) hle
        rwa [show sum_ivector (decLast (trimZeros sig)) + 1 = sum_ivector sig from hdec]
          at hih

theorem derive_diffterms_zero (nvars nconstr : Nat) (fuel : Nat)
    (terms : DiffTerms) (sig : List Nat) (h : ∀ x ∈ sig, x = 0) :
    derive_diffterms nvars nconstr (fuel + 1) terms sig = some terms := by
  simp only [derive_diffterms, trimZeros_allZero sig h]
  rfl

theorem addTerm_keys_sub (t : DiffTerm) (c : Int) :
    ∀ (tv : DiffTerms) (x : DiffTerm),
      x ∈ (addTerm tv t c).map Prod.fst → x ∈ tv.map Prod.fst ∨ x = t := by
  intro tv
  induction tv with
  | nil =>
      intro x hx
      simp [addTerm] at hx
      exact Or.inr hx
  | cons e rest ih =>
      intro x hx
      by_cases he : e.1 = t
      · rw [addTerm, if_pos he] at hx
        simp only [List.map_cons, List.mem_cons] at hx
        rcases hx with hx | hx
        · exact Or.inr (hx.trans he)
        · exact Or.inl (by simp [hx])
      · rw [addTerm, if_neg he] at hx
        simp only [List.map_cons, List.mem_cons] at hx
        rcases hx with hx | hx
        · exact Or.inl (by simp [hx])
        · rcases ih x hx with h | h
          · exact Or.inl (by simp [h])
          · exact Or.inr h

theorem addTerm_keys_nodup (t : DiffTerm) (c : Int) :
    ∀ tv : DiffTerms, (tv.map Prod.fst).Nodup →
      ((addTerm tv t c).map Prod.fst).Nodup := by
  intro tv
  induction tv with
  | nil => intro _; simp [addTerm]
  | cons e rest ih =>
      intro hnd
      simp only [List.map_cons, List.nodup_cons] at hnd
      by_cases he : e.1 = t
      · rw [addTerm, if_pos he]
        simp only [List.map_cons, List.nodup_cons]
        exact hnd
      · rw [addTerm, if_neg he]
        simp only [List.map_cons, List.nodup_cons]
        refine ⟨?_, ih hnd.2⟩
        intro hcontra
        rcases addTerm_keys_sub t c rest e.1 hcontra with h | h
        · exact hnd.1 h
        · exact he h

theorem hFactorLoop_nodup (k : Nat) (base : List Nat) (c : Int) :
    ∀ (l : List (List Nat × Int)) (h : IvMap) (tv : DiffTerms),
      (tv.map Prod.fst).Nodup →
      (((hFactorLoop k base c l h tv).2).map Prod.fst).Nodup := by
  intro l
  induction l with
  | nil => intro h tv hnd; exact hnd
  | cons vp rest ih =>
      intro h tv hnd
      obtain ⟨v, p⟩ := vp
      by_cases hp : p = 0
      · rw [hFactorLoop, if_pos hp]
        exact ih h tv hnd
      · rw [hFactorLoop, if_neg hp]
        exact ih _ _ (addTerm_keys_nodup _ _ tv hnd)

theorem constrLoop_nodup (nvars k : Nat) (base : List Nat) (c : Int) :
    ∀ (l : List Nat) (t2 : IvMap) (tv : DiffTerms),
      (tv.map Prod.fst).Nodup →
      ((constrLoop nvars k base c l t2 tv).map Prod.fst).Nodup := by
  intro l
  induction l with
  | nil => intro t2 tv hnd; exact hnd
  | cons i rest ih =>
      intro t2 tv hnd
      rw [constrLoop]
      exact ih _ _ (addTerm_keys_nodup _ _ tv hnd)

theorem termContrib_nodup (nvars nconstr k : Nat) (t0 : DiffTerm) (c : Int)
    (tv : DiffTerms) (hnd : (tv.map Prod.fst).Nodup) :
    ((termContrib nvars nconstr k t0 c tv).map Prod.fst).Nodup := by
  rw [termContrib]
  exact constrLoop_nodup nvars k t0.1 c (List.range nconstr) t0.2 _
    (hFactorLoop_nodup k t0.1 c t0.2 t0.2 _ (addTerm_keys_nodup _ _ tv hnd))

theorem derive_step_nodup (nvars nconstr k : Nat) (terms : DiffTerms) :
    ((derive_step nvars nconstr k terms).map Prod.fst).Nodup := by
  rw [derive_step]
  have haux : ∀ (l : List (DiffTerm × Int)) (acc : DiffTerms),
      (acc.map Prod.fst).Nodup →
      ((l.foldl (fun tv tc => termContrib nvars nconstr k tc.1 tc.2 tv) acc).map
        Prod.fst).Nodup := by
    intro l
    induction l with
    | nil => intro acc h; exact h
    | cons tc rest ih =>
        intro acc h
        exact ih _ (termContrib_nodup nvars nconstr k tc.1 tc.2 acc h)
  exact haux terms [] (by simp)

theorem derive_diffterms_nodup (nvars nconstr : Nat) :
    ∀ (fuel : Nat) (terms : DiffTerms) (sig : List Nat) (r : DiffTerms),
      (terms.map Prod.fst).Nodup →
      derive_diffterms nvars nconstr fuel terms sig = some r →
      (r.map Prod.fst).Nodup := by
  intro fuel
  induction fuel with
  | zero => intro terms sig r _ h; simp [derive_diffterms] at h
  | succ f ih =>
      intro terms sig r hnd h
      simp only [derive_diffterms] at h
      by_cases htr : trimZeros sig = []
      · rw [if_pos htr] at h
        have : terms = r := by
          have := h
          injection this
        rw [← this]
        exact hnd
      · rw [if_neg htr] at h
        exact ih _ _ r (derive_step_nodup nvars nconstr _ terms) h

theorem addTerm_coeff (t : DiffTerm) (c : Int) :
    ∀ tv : DiffTerms, coeffOf (addTerm tv t c) t = coeffOf tv t + c := by
  intro tv
  induction tv with
  | nil => simp [addTerm, coeffOf]
  | cons e rest ih =>
      by_cases he : e.1 = t
      · rw [addTerm, if_pos he, coeffOf, if_pos he, coeffOf, if_pos he]
      · rw [addTerm, if_neg he, coeffOf, if_neg he, coeffOf, if_neg he, ih]

theorem addTerm_coeff_ne (t t' : DiffTerm) (c : Int) (hne : t' ≠ t) :
    ∀ tv : DiffTerms, coeffOf (addTerm tv t c) t' = coeffOf tv t' := by
  intro tv
  induction tv with
  | nil =>
      simp only [addTerm, coeffOf]
      rw [if_neg (fun h => hne h.symm)]
  | cons e rest ih =>
      by_cases he : e.1 = t
      · rw [addTerm, if_pos he, coeffOf, coeffOf]
        rw [if_neg (by rw [he]; exact fun h => hne h.symm), if_neg (by
          rw [he] at *
          exact fun h => hne h.symm)]
      · rw [addTerm, if_neg he, coeffOf, coeffOf]
        by_cases he' : e.1 = t'
        · rw [if_pos he', if_pos he']
        · rw [if_neg he', if_neg he', ih]

/-- C7: `derive_diffterms` terminates for every input expansion and every
non-negative excess multi-index — each recursive step strictly decreases the
excess sum, so recursion depth `sum + 1` always suffices; it returns the
input expansion unchanged when the excess multi-index is all zero; and in
every produced expansion structurally equal terms are merged into a single
entry — the term keys stay duplicate-free, and the `tv[t] += c` update adds
the coefficient onto the existing structurally equal entry without touching
any other entry. -/
theorem derive_diffterms_spec (nvars nconstr : Nat) (terms : DiffTerms)
    (sig : List Nat) :
    (∃ r, derive_diffterms nvars nconstr (sum_ivector sig + 1) terms sig = some r) ∧
    ((∀ x ∈ sig, x = 0) →
      derive_diffterms nvars nconstr (sum_ivector sig + 1) terms sig = some terms) ∧
    ((terms.map Prod.fst).Nodup → ∀ r,
      derive_diffterms nvars nconstr (sum_ivector sig + 1) terms sig = some r →
      (r.map Prod.fst).Nodup) ∧
    (∀ (tv : DiffTerms) (t : DiffTerm) (c : Int),
      coeffOf (addTerm tv t c) t = coeffOf tv t + c ∧
      ∀ t', t' ≠ t → coeffOf (addTerm tv t c) t' = coeffOf tv t') := by
  refine ⟨?_, ?_, ?_, ?_⟩
  · exact derive_diffterms_fuel nvars nconstr (sum_ivector sig) terms sig (le_refl _)
  · intro h
    exact derive_diffterms_zero nvars nconstr (sum_ivector sig) terms sig h
  · intro hnd r h
    exact derive_diffterms_nodup nvars nconstr (sum_ivector sig + 1) terms sig r hnd h
  · intro tv t c
    exact ⟨addTerm_coeff t c tv, fun t' hne => addTerm_coeff_ne t t' c hne tv⟩

/-- Witness for `derive_diffterms_spec`: the all-zero-excess and
duplicate-freeness hypotheses are discharged on a concrete one-term
expansion. -/
theorem derive_diffterms_spec_witness :
    ((∀ x ∈ ([0, 0] : List Nat), x = 0) ∧
      (([((([0, 0], []) : DiffTerm), (2 : Int))] : DiffTerms).map Prod.fst).Nodup) ∧
    derive_diffterms 1 1 (sum_ivector [0, 0] + 1)
      [((([0, 0], []) : DiffTerm), (2 : Int))] [0, 0] =
      some [((([0, 0], []) : DiffTerm), (2 : Int))] :=
  ⟨⟨by decide, by decide⟩,
    (derive_diffterms_spec 1 1 [((([0, 0], []) : DiffTerm), (2 : Int))] [0, 0]).2.1
      (by decide)⟩

end Optimization
